import Mathlib

/-!
Verification of the Topology-Aware Balanced Placement Engine
(`simulateGreedy`, `balanceThresholdValue`, `selectOptimalDomainSetToFit`,
`placeSlicesOnDomainsBalanced` from `pkg/cache/localqueue.go`, scheduler part).

Machine `int32` values are modelled as `Int`; the claims under study only
involve small magnitudes, so wrap-around is not modelled.  Go `nil` slices
and absent map entries are modelled with `Option`.  Pointer-mutated domain
objects are modelled as values carrying an `id` (pointer identity); the
placement routine returns, besides its result, the post-call state of the
whole candidate list.
-/

/-- A topology domain (the `domain` struct of the scheduler).  The `id`
field models pointer identity of the Go object; the five counters are the
fields read and written by the placement engine. -/
structure Domain where
  id : Nat
  state : Int
  stateWithLeader : Int
  sliceState : Int
  sliceStateWithLeader : Int
  leaderState : Int
deriving DecidableEq, Repr, Inhabited

/-- Insert `d` into `l` just before the first element `x` with `before d x`;
with a non-strict `before` relation this yields a stable insertion sort. -/
def insertSorted (before : Domain → Domain → Bool) (d : Domain) :
    List Domain → List Domain
  | [] => [d]
  | x :: xs => if before d x then d :: x :: xs else x :: insertSorted before d xs

/-- Stable insertion sort with respect to the non-strict priority relation
`before`. -/
def stableSortBy (before : Domain → Domain → Bool) : List Domain → List Domain
  | [] => []
  | x :: xs => insertSorted before x (stableSortBy before xs)

/-- Modelled from the spec: `sorted_domains(ds, ascending)` is a stable sort
by `slice_state` (§4.2); the implementation of this helper is not under
`src/`, so it is realized as a stable insertion sort.  `false` gives
descending order. -/
def sortedDomains (ds : List Domain) (ascending : Bool) : List Domain :=
  if ascending then
    stableSortBy (fun a b => decide (a.sliceState ≤ b.sliceState)) ds
  else
    stableSortBy (fun a b => decide (b.sliceState ≤ a.sliceState)) ds

/-- Modelled from the spec: `sorted_domains_with_leader(ds, ascending)` is a
stable sort by `slice_state_with_leader` with ties broken by `slice_state`
(§4.2); the implementation of this helper is not under `src/`, so it is
realized as a stable insertion sort.  `false` gives descending order. -/
def sortedDomainsWithLeader (ds : List Domain) (ascending : Bool) : List Domain :=
  if ascending then
    stableSortBy (fun a b =>
      decide (a.sliceStateWithLeader < b.sliceStateWithLeader ∨
        (a.sliceStateWithLeader = b.sliceStateWithLeader ∧ a.sliceState ≤ b.sliceState))) ds
  else
    stableSortBy (fun a b =>
      decide (b.sliceStateWithLeader < a.sliceStateWithLeader ∨
        (b.sliceStateWithLeader = a.sliceStateWithLeader ∧ b.sliceState ≤ a.sliceState))) ds

/-- State of `simulateGreedy`'s leader phase: remaining leader count,
remaining slice count, selected-domain count, last domain taken with a
leader, and the not-yet-consumed suffix of the sorted candidate list. -/
structure LeaderPhase where
  remL : Int
  remS : Int
  cnt : Int
  last : Option Domain
  rest : List Domain
deriving DecidableEq, Repr

/-- The leader-phase loop of `simulateGreedy` (localqueue.go:81-86): walk the
sorted list, taking domains while the remaining leader count is positive and
the current domain has `leaderState > 0`. -/
def leaderLoop (remL remS cnt : Int) (last : Option Domain) :
    List Domain → LeaderPhase
  | [] => ⟨remL, remS, cnt, last, []⟩
  | d :: ds =>
    if 0 < remL ∧ 0 < d.leaderState then
      leaderLoop (remL - d.leaderState) (remS - d.sliceStateWithLeader)
        (cnt + 1) (some d) ds
    else ⟨remL, remS, cnt, last, d :: ds⟩

/-- State of `simulateGreedy`'s slice phase: remaining slice count,
selected-domain count, and last domain taken. -/
structure SlicePhase where
  remS : Int
  cnt : Int
  last : Option Domain
deriving DecidableEq, Repr

/-- The slice-phase loop of `simulateGreedy` (localqueue.go:96-100): walk the
sorted remaining list, taking domains while the remaining slice count is
positive and the current domain has `sliceState > 0`. -/
def sliceLoop (remS cnt : Int) (last : Option Domain) :
    List Domain → SlicePhase
  | [] => ⟨remS, cnt, last⟩
  | d :: ds =>
    if 0 < remS ∧ 0 < d.sliceState then
      sliceLoop (remS - d.sliceState) (cnt + 1) (some d) ds
    else ⟨remS, cnt, last⟩

/-- The leader phase of `simulateGreedy` run on the descending
`sliceStateWithLeader`-sorted candidates (localqueue.go:80-86). -/
def leaderPhaseOf (ds : List Domain) (sc lc : Int) : LeaderPhase :=
  leaderLoop lc sc 0 none (sortedDomainsWithLeader ds false)

/-- The state of `simulateGreedy` after the leader phase (localqueue.go:79-90):
when `leaderCount > 0` the leader loop runs and the unpicked suffix is
re-sorted by `sliceState`; otherwise the whole list is sorted by
`sliceState`. -/
def greedyPhase1 (ds : List Domain) (sc lc : Int) : LeaderPhase :=
  if 0 < lc then
    let r := leaderPhaseOf ds sc lc
    { r with rest := sortedDomains r.rest false }
  else ⟨lc, sc, 0, none, sortedDomains ds false⟩

/-- The state of `simulateGreedy` after the slice phase
(localqueue.go:96-100). -/
def greedyPhase2 (ds : List Domain) (sc lc : Int) : SlicePhase :=
  sliceLoop (greedyPhase1 ds sc lc).remS (greedyPhase1 ds sc lc).cnt none
    (greedyPhase1 ds sc lc).rest

/-- `simulateGreedy` (localqueue.go:72-105): greedy feasibility simulator.
Returns `(fit, selectedDomainsCount, lastDomainWithLeader, lastDomain)`. -/
def simulateGreedy (domains : List Domain) (sliceCount leaderCount : Int) :
    Bool × Int × Option Domain × Option Domain :=
  let lp := greedyPhase1 domains sliceCount leaderCount
  if 0 < lp.remL then (false, 0, none, none)
  else
    let sp := sliceLoop lp.remS lp.cnt none lp.rest
    if 0 < sp.remS then (false, 0, none, none)
    else (true, sp.cnt, lp.last, sp.last)

/-- Unfolding equation for `simulateGreedy` in terms of the two phases. -/
theorem simulateGreedy_def (ds : List Domain) (sc lc : Int) :
    simulateGreedy ds sc lc =
      if 0 < (greedyPhase1 ds sc lc).remL then (false, 0, none, none)
      else if 0 < (greedyPhase2 ds sc lc).remS then (false, 0, none, none)
      else (true, (greedyPhase2 ds sc lc).cnt, (greedyPhase1 ds sc lc).last,
        (greedyPhase2 ds sc lc).last) := rfl

/-- A starting domain together with the two tree levels below it that
`balanceThresholdValue` inspects: each child carries the list of its own
children (the starting domain's grandchildren). -/
structure DomainTree where
  info : Domain
  children : List (Domain × List Domain)
deriving DecidableEq, Repr

/-- `startingDomain.children` as a flat list of domains. -/
def childrenOf (t : DomainTree) : List Domain :=
  t.children.map Prod.fst

/-- `startingDomain.grandchildren()`: the concatenation of the children's
children. -/
def grandchildrenOf (t : DomainTree) : List Domain :=
  (t.children.map Prod.snd).flatten

/-- `balanceThresholdValue` (localqueue.go:110-138).  Go's `int32` division
truncates toward zero, hence `Int.tdiv`. -/
def balanceThresholdValue (t : DomainTree) (sliceCount leaderCount : Int)
    (balanceOnChildren : Bool) : Int × Bool :=
  if sliceCount = 0 ∧ leaderCount = 0 then (0, true)
  else if t.info.sliceStateWithLeader < sliceCount ∨ t.info.leaderState < leaderCount then
    (0, false)
  else
    let domainsToBalance := if balanceOnChildren then childrenOf t else grandchildrenOf t
    let g := simulateGreedy domainsToBalance sliceCount leaderCount
    if g.1 = false then (0, false)
    else
      let threshold := Int.tdiv sliceCount g.2.1
      let threshold :=
        match g.2.2.1 with
        | some d => min threshold d.sliceStateWithLeader
        | none => threshold
      let threshold :=
        match g.2.2.2 with
        | some d => min threshold d.sliceState
        | none => threshold
      (threshold, true)

/-- Inner DP map: slice-units-remaining key to stored placement, kept as an
association list sorted by ascending key (Go iterates
`slices.Sorted(maps.Keys(m))`, so sorted-order iteration is the observable
behaviour). -/
abbrev InnerMap := List (Int × List Domain)

/-- Outer DP map of one layer: leaders-remaining key to inner map, sorted by
ascending key. -/
abbrev LevelMap := List (Int × InnerMap)

/-- Write-if-absent into a sorted association list (the DP's
`if _, alreadyThere := m[k]; !alreadyThere` rule: the first writer wins). -/
def insertIfAbsent (k : Int) (v : List Domain) : InnerMap → InnerMap
  | [] => [(k, v)]
  | (k', v') :: rest =>
    if k < k' then (k, v) :: (k', v') :: rest
    else if k = k' then (k', v') :: rest
    else (k', v') :: insertIfAbsent k v rest

/-- Write-if-absent of a placement at keys `(l, s)` in a layer map, creating
the inner map when the leader key is new (the `== nil` check in the Go
code). -/
def levelInsert (l s : Int) (v : List Domain) : LevelMap → LevelMap
  | [] => [(l, [(s, v)])]
  | (l', inner) :: rest =>
    if l < l' then (l, [(s, v)]) :: (l', inner) :: rest
    else if l = l' then (l', insertIfAbsent s v inner) :: rest
    else (l', inner) :: levelInsert l s v rest

/-- Process one reached cell `(l, s)` of layer `i-1` for candidate `d`
(localqueue.go:162-189): skip exhausted cells, then try taking `d` with a
leader (case 1) and without (case 2), writing into the layer-`i`
accumulator. -/
def processCell (d : Domain) (l s : Int) (pl : List Domain) (acc : LevelMap) :
    LevelMap :=
  if l ≤ 0 ∧ s ≤ 0 then acc
  else
    let newPl := pl ++ [d]
    let acc1 :=
      if 0 < l ∧ 0 < d.leaderState then
        levelInsert (l - d.leaderState) (s - d.stateWithLeader) newPl acc
      else acc
    if 0 < d.sliceState then levelInsert l (s - d.state) newPl acc1 else acc1

/-- Process all reached cells of layer `prev` for candidate `d`, updating the
next-layer map `cur`; cells are visited in ascending `(l, s)` key order,
matching the Go iteration over sorted keys. -/
def processLevel (d : Domain) (prev cur : LevelMap) : LevelMap :=
  prev.foldl
    (fun acc p => p.2.foldl (fun acc2 q => processCell d p.1 q.1 q.2 acc2) acc)
    cur

/-- One pass of the `for i := optimalNumberOfDomains; i > 0; i--` loop body:
layer `i` is rebuilt from the pre-pass layers `i-1` and `i`.  (The Go loop
descends over `i`; since layer `i-1` is only written at iteration `i-1`,
after being read at iteration `i`, every read sees the pre-pass table and
the pass is a pure function of it.) -/
def processAux (d : Domain) (prev : LevelMap) : List LevelMap → List LevelMap
  | [] => []
  | t :: ts => processLevel d prev t :: processAux d t ts

/-- Process one candidate domain against the whole table
(localqueue.go:158-193, one iteration of the outer `for _, d` loop). -/
def processDomainGo (d : Domain) : List LevelMap → List LevelMap
  | [] => []
  | t0 :: rest => t0 :: processAux d t0 rest

/-- The seeded DP table: layer `0` holds the single cell
`(leaderCount, sliceCount*sliceSize) -> empty placement`, layers `1..n` are
empty (localqueue.go:152-156). -/
def seedTable (numLevels : Nat) (leaderCount seedState : Int) : List LevelMap :=
  [(leaderCount, [(seedState, ([] : List Domain))])] :: List.replicate numLevels []

/-- The DP table after all candidates are processed. -/
def buildTable (domains : List Domain) (numLevels : Nat)
    (leaderCount seedState : Int) : List LevelMap :=
  domains.foldl (fun t d => processDomainGo d t)
    (seedTable numLevels leaderCount seedState)

/-- Go map lookup in a layer map: `none` models a `nil` inner map. -/
def innerLookup (m : LevelMap) (k : Int) : Option InnerMap :=
  (m.find? (fun p => p.1 = k)).map Prod.snd

/-- The winning-leader-key loop (localqueue.go:195-204), modelled exactly as
written: `for j := range slices.Sorted(maps.Keys(m))` binds `j` to the
indices `0..len-1` of the sorted key slice, and `leadersLeft := int32(j)`
uses the index itself as the candidate key. -/
def pickBestLeaderMap (m : LevelMap) : Int × Option InnerMap :=
  (List.range m.length).foldl
    (fun (acc : Int × Option InnerMap) (j : Nat) =>
      if (j : Int) > acc.1 ∧ (j : Int) ≤ 0 then ((j : Int), innerLookup m (j : Int))
      else acc)
    (-(2 ^ 31 : Int), none)

/-- The winning-slice-key loop (localqueue.go:205-213): iterate the inner map
in ascending key order keeping the last placement with key `≤ 0`; `none`
models the `nil` result slice. -/
def pickBestSlice (inner : InnerMap) : Int × Option (List Domain) :=
  inner.foldl
    (fun acc q => if q.1 > acc.1 ∧ q.1 ≤ 0 then (q.1, some q.2) else acc)
    (-(2 ^ 31 : Int), none)

/-- `selectOptimalDomainSetToFit` (localqueue.go:140-215) on the
`priorizeByEntropy = false` path, the one taken by
`placeSlicesOnDomainsBalanced`.  (The `true` path only pre-permutes the
candidates with a floating-point entropy sort before the identical DP.)
`none` models the `nil` return; a returned empty list is a non-nil empty
slice. -/
def selectOptimalDomainSetToFit (domains : List Domain)
    (sliceCount leaderCount sliceSize : Int) : Option (List Domain) :=
  let g := simulateGreedy domains sliceCount leaderCount
  if g.1 = false then none
  else
    let optimalNumberOfDomains := g.2.1
    let table := buildTable domains optimalNumberOfDomains.toNat leaderCount
      (sliceCount * sliceSize)
    let lastLevel := table.getD optimalNumberOfDomains.toNat []
    let bestLeaderPlacement := (pickBestLeaderMap lastLevel).2
    (pickBestSlice (bestLeaderPlacement.getD [])).2

/-- The field updates one iteration of the balancer loop performs on the
current domain (localqueue.go:232-245): `take` is the `extraSlicesToTake`
value and `ls` the assigned `leaderState`. -/
def updateDomain (d : Domain) (ls take sliceSize threshold : Int) : Domain :=
  { d with
    leaderState := ls
    state := (threshold + take) * sliceSize
    sliceState := threshold + take
    sliceStateWithLeader := (threshold + take) - ls
    stateWithLeader := (threshold + take) * sliceSize - ls }

/-- One iteration of the balancer loop's `switch` (localqueue.go:230-246):
returns the mutated domain together with the updated `extraSlicesLeft` and
`leadersLeft`. -/
def balanceStep (sliceSize threshold : Int) (d : Domain) (eL lL : Int) :
    Domain × Int × Int :=
  if 0 < lL then
    let take := min (d.sliceStateWithLeader - threshold) eL
    (updateDomain d 1 take sliceSize threshold, eL - take, lL - 1)
  else if 0 < eL then
    let take := min (d.sliceState - threshold) eL
    (updateDomain d 0 take sliceSize threshold, eL - take, lL)
  else
    (updateDomain d 0 0 sliceSize threshold, eL, lL)

/-- The balancer loop (localqueue.go:229-247): returns the mutated domains in
iteration order together with the final `extraSlicesLeft` and
`leadersLeft`. -/
def balanceLoop (sliceSize threshold : Int) :
    List Domain → Int → Int → List Domain × Int × Int
  | [], eL, lL => ([], eL, lL)
  | d :: rest, eL, lL =>
    let step := balanceStep sliceSize threshold d eL lL
    let r := balanceLoop sliceSize threshold rest step.2.1 step.2.2
    (step.1 :: r.1, r.2)

/-- The in-place pointer mutation of the selected domains, seen from the full
candidate list: every candidate whose identity occurs in the updated list is
replaced by its updated value. -/
def applyUpdates (updated domains : List Domain) : List Domain :=
  domains.map (fun d => ((updated.find? (fun u => u.id = d.id)).getD d))

/-- `placeSlicesOnDomainsBalanced` (localqueue.go:217-252).  Returns the
placement (`none` models a `nil` result), the diagnostic string, and the
post-call state of the whole candidate list. -/
def placeSlicesOnDomainsBalanced (domains : List Domain)
    (sliceCount leaderCount sliceSize threshold : Int) :
    Option (List Domain) × String × List Domain :=
  match selectOptimalDomainSetToFit domains sliceCount leaderCount sliceSize with
  | none =>
    (none, "TAS Balanced Placement Error: Cannot find optimal domain set to fit",
      domains)
  | some resultDomains =>
    if sliceCount < (resultDomains.length : Int) * threshold then
      (none, "TAS Balanced Placement Error: Not enough slices to meet the threshold",
        domains)
    else
      let sortedSel := sortedDomainsWithLeader resultDomains false
      let r := balanceLoop sliceSize threshold sortedSel
        (sliceCount - (resultDomains.length : Int) * threshold) leaderCount
      let post := applyUpdates r.1 domains
      if 0 < r.2.1 ∨ 0 < r.2.2 then
        (none, "TAS Balanced Placement Error: Not all slices or leaders could be placed",
          post)
      else (some r.1, "", post)

/-! ### Loop lemmas for the greedy simulator -/

/-- The leader loop consumes a maximal prefix of its input: the prefix taken
is exactly characterized by the running leader balance staying positive and
each taken domain being leader-eligible, and the loop stops on exhaustion,
on a non-positive balance, or at the first non-eligible domain. -/
theorem leaderLoop_characterize (ds : List Domain) :
    ∀ (remL remS cnt : Int) (last : Option Domain),
      ∃ taken : List Domain,
        ds = taken ++ (leaderLoop remL remS cnt last ds).rest ∧
        (leaderLoop remL remS cnt last ds).remL
          = remL - (taken.map (fun d => d.leaderState)).sum ∧
        (leaderLoop remL remS cnt last ds).remS
          = remS - (taken.map (fun d => d.sliceStateWithLeader)).sum ∧
        (leaderLoop remL remS cnt last ds).cnt = cnt + taken.length ∧
        (∀ pre d post, taken = pre ++ d :: post →
          0 < remL - ((pre.map (fun x => x.leaderState)).sum) ∧ 0 < d.leaderState) ∧
        ((leaderLoop remL remS cnt last ds).rest = [] ∨
          (leaderLoop remL remS cnt last ds).remL ≤ 0 ∨
          ∀ d ∈ (leaderLoop remL remS cnt last ds).rest.head?, d.leaderState ≤ 0) := by
  induction ds with
  | nil =>
    intro remL remS cnt last
    refine ⟨[], by simp [leaderLoop], by simp [leaderLoop], by simp [leaderLoop],
      by simp [leaderLoop], ?_, by simp [leaderLoop]⟩
    intro pre d post h
    exact absurd h (by simp)
  | cons d ds ih =>
    intro remL remS cnt last
    by_cases h : 0 < remL ∧ 0 < d.leaderState
    · have hstep : leaderLoop remL remS cnt last (d :: ds)
        = leaderLoop (remL - d.leaderState) (remS - d.sliceStateWithLeader)
            (cnt + 1) (some d) ds := by
        rw [leaderLoop, if_pos h]
      obtain ⟨taken, h1, h2, h3, h4, h5, h6⟩ :=
        ih (remL - d.leaderState) (remS - d.sliceStateWithLeader) (cnt + 1) (some d)
      refine ⟨d :: taken, ?_, ?_, ?_, ?_, ?_, ?_⟩
      · rw [hstep]; exact congrArg (d :: ·) h1
      · rw [hstep, h2]; simp; ring
      · rw [hstep, h3]; simp; ring
      · rw [hstep, h4]; simp; ring
      · intro pre e post heq
        match pre, heq with
        | [], heq =>
          have : d = e := by simpa using congrArg (fun l => l.headI) heq
          subst this
          exact ⟨by simpa using h.1, h.2⟩
        | p :: pre', heq =>
          have hp : p = d ∧ taken = pre' ++ e :: post := by
            constructor
            · simpa using (congrArg (fun l => l.headI) heq).symm
            · simpa using congrArg (fun l => l.tail) heq
          obtain ⟨hpd, htk⟩ := hp
          subst hpd
          have := h5 pre' e post htk
          refine ⟨?_, this.2⟩
          have h51 := this.1
          simp only [List.map_cons, List.sum_cons]
          omega
      · rw [hstep]; exact h6
    · have hstep : leaderLoop remL remS cnt last (d :: ds)
        = ⟨remL, remS, cnt, last, d :: ds⟩ := by
        rw [leaderLoop, if_neg h]
      refine ⟨[], by simp [hstep], by simp [hstep], by simp [hstep], by simp [hstep],
        ?_, ?_⟩
      · intro pre e post heq
        exact absurd heq (by simp)
      · rw [hstep]
        rcases not_and_or.mp h with h' | h'
        · exact Or.inr (Or.inl (by simpa using h'))
        · refine Or.inr (Or.inr ?_)
          intro x hx
          simp only [List.head?_cons, Option.mem_def, Option.some.injEq] at hx
          subst hx
          omega

/-- The slice loop never decreases the selected-domain counter. -/
theorem sliceLoop_cnt_le (ds : List Domain) :
    ∀ (remS cnt : Int) (last : Option Domain),
      cnt ≤ (sliceLoop remS cnt last ds).cnt := by
  induction ds with
  | nil => intro remS cnt last; simp [sliceLoop]
  | cons d ds ih =>
    intro remS cnt last
    rw [sliceLoop]
    split
    · exact le_trans (by omega) (ih (remS - d.sliceState) (cnt + 1) (some d))
    · simp

/-- The leader loop never decreases the selected-domain counter. -/
theorem leaderLoop_cnt_le (ds : List Domain) :
    ∀ (remL remS cnt : Int) (last : Option Domain),
      cnt ≤ (leaderLoop remL remS cnt last ds).cnt := by
  induction ds with
  | nil => intro remL remS cnt last; simp [leaderLoop]
  | cons d ds ih =>
    intro remL remS cnt last
    rw [leaderLoop]
    split
    · exact le_trans (by omega)
        (ih (remL - d.leaderState) (remS - d.sliceStateWithLeader) (cnt + 1) (some d))
    · simp

/-- The selected-domain counter of the leader phase starts at zero and never
decreases. -/
theorem greedyPhase1_cnt_nonneg (ds : List Domain) (sc lc : Int) :
    0 ≤ (greedyPhase1 ds sc lc).cnt := by
  unfold greedyPhase1
  split
  · simpa [leaderPhaseOf] using
      leaderLoop_cnt_le (sortedDomainsWithLeader ds false) lc sc 0 none
  · simp

/-- The selected-domain count reported by `simulateGreedy` is never
negative. -/
theorem simulateGreedy_cnt_nonneg (ds : List Domain) (sc lc : Int) :
    0 ≤ (simulateGreedy ds sc lc).2.1 := by
  rw [simulateGreedy_def]
  split
  · simp
  split
  · simp
  · have h1 := greedyPhase1_cnt_nonneg ds sc lc
    have h2 := sliceLoop_cnt_le (greedyPhase1 ds sc lc).rest
      (greedyPhase1 ds sc lc).remS (greedyPhase1 ds sc lc).cnt none
    simp only [greedyPhase2] at *
    exact le_trans h1 h2

/-- When `simulateGreedy` reports a fit for a request that is not all-zero,
it has selected at least one domain. -/
theorem simulateGreedy_fit_cnt_pos (ds : List Domain) (sc lc : Int)
    (hsc : 0 ≤ sc) (hlc : 0 ≤ lc) (hnz : ¬(sc = 0 ∧ lc = 0))
    (hfit : (simulateGreedy ds sc lc).1 = true) :
    1 ≤ (simulateGreedy ds sc lc).2.1 := by
  rw [simulateGreedy_def] at hfit ⊢
  by_cases h1 : 0 < (greedyPhase1 ds sc lc).remL
  · rw [if_pos h1] at hfit; exact absurd hfit (by simp)
  rw [if_neg h1] at hfit ⊢
  by_cases h2 : 0 < (greedyPhase2 ds sc lc).remS
  · rw [if_pos h2] at hfit; exact absurd hfit (by simp)
  rw [if_neg h2] at hfit ⊢
  show (1 : Int) ≤ (greedyPhase2 ds sc lc).cnt
  by_cases hl : 0 < lc
  · have hcnt1 : 1 ≤ (greedyPhase1 ds sc lc).cnt := by
      cases hs : sortedDomainsWithLeader ds false with
      | nil =>
        exact absurd (by simp [greedyPhase1, hl, leaderPhaseOf, hs, leaderLoop]) h1
      | cons d rest =>
        by_cases hd : 0 < d.leaderState
        · have hg : (greedyPhase1 ds sc lc).cnt
              = (leaderLoop (lc - d.leaderState) (sc - d.sliceStateWithLeader)
                  (0 + 1) (some d) rest).cnt := by
            simp only [greedyPhase1, if_pos hl, leaderPhaseOf, hs]
            rw [leaderLoop, if_pos ⟨hl, hd⟩]
          rw [hg]
          exact leaderLoop_cnt_le rest _ _ _ _
        · refine absurd ?_ h1
          simp only [greedyPhase1, if_pos hl, leaderPhaseOf, hs]
          rw [leaderLoop, if_neg (by tauto)]
          exact hl
    have hcnt2 := sliceLoop_cnt_le (greedyPhase1 ds sc lc).rest
      (greedyPhase1 ds sc lc).remS (greedyPhase1 ds sc lc).cnt none
    simp only [greedyPhase2] at *
    exact le_trans hcnt1 hcnt2
  · have hlc0 : lc = 0 := by omega
    have hsc0 : 0 < sc := by
      rcases lt_or_eq_of_le hsc with h | h
      · exact h
      · exact absurd ⟨h.symm, hlc0⟩ hnz
    have hgp : greedyPhase1 ds sc lc = ⟨lc, sc, 0, none, sortedDomains ds false⟩ := by
      simp [greedyPhase1, hl]
    cases hs : sortedDomains ds false with
    | nil =>
      refine absurd ?_ h2
      simp [greedyPhase2, hgp, hs, sliceLoop]
      exact hsc0
    | cons d rest =>
      by_cases hd : 0 < d.sliceState
      · have hg : (greedyPhase2 ds sc lc).cnt
            = (sliceLoop (sc - d.sliceState) (0 + 1) (some d) rest).cnt := by
          simp only [greedyPhase2, hgp, hs]
          rw [sliceLoop, if_pos ⟨hsc0, hd⟩]
        rw [hg]
        exact sliceLoop_cnt_le rest _ _ _
      · refine absurd ?_ h2
        simp only [greedyPhase2, hgp, hs]
        rw [sliceLoop, if_neg (by tauto)]
        exact hsc0

/-! ### Claim C2: the leader phase of `simulateGreedy` -/

/-- A candidate with the largest `sliceStateWithLeader` but no leader
eligibility. -/
def cexA : Domain := ⟨0, 5, 5, 5, 5, 0⟩

/-- A leader-eligible candidate sorted after `cexA`. -/
def cexB : Domain := ⟨1, 3, 3, 3, 3, 1⟩

/-- C2, counterexample: `simulateGreedy [cexA, cexB] 0 1` returns
`(false, 0, nil, nil)` from the leader phase although the leader-eligible
candidate `cexB` remains unconsumed (the whole sorted list is left over),
and the request would in fact fit on `cexB` alone.  The loop stops at the
first non-eligible domain in sorted order, not only when no leader-eligible
candidates remain. -/
theorem simulateGreedy_leader_phase_cex :
    simulateGreedy [cexA, cexB] 0 1 = (false, 0, none, none) ∧
    (leaderPhaseOf [cexA, cexB] 0 1).rest = [cexA, cexB] ∧
    cexB ∈ (leaderPhaseOf [cexA, cexB] 0 1).rest ∧ 0 < cexB.leaderState ∧
    simulateGreedy [cexB] 0 1 = (true, 1, some cexB, none) := by
  refine ⟨?_, ?_, ?_, ?_, ?_⟩ <;> decide

/-- C2 (amended): for `leader_count > 0` the leader phase of `simulateGreedy`
consumes a prefix of the descending-`sliceStateWithLeader`-sorted candidates;
every taken domain is taken while the running leader balance is still
positive and has `leaderState > 0`, the balances decrease by the taken
domains' `leaderState` and `sliceStateWithLeader`, and the phase stops on
exhaustion, on a non-positive balance, or at the first domain with
`leaderState ≤ 0`; if the balance is still positive at the stop,
`simulateGreedy` returns `(false, 0, nil, nil)`. -/
theorem simulateGreedy_leader_phase_characterization (ds : List Domain)
    (sc lc : Int) (hlc : 0 < lc) :
    ∃ taken : List Domain,
      sortedDomainsWithLeader ds false = taken ++ (leaderPhaseOf ds sc lc).rest ∧
      (leaderPhaseOf ds sc lc).remL = lc - (taken.map (fun d => d.leaderState)).sum ∧
      (leaderPhaseOf ds sc lc).remS
        = sc - (taken.map (fun d => d.sliceStateWithLeader)).sum ∧
      (leaderPhaseOf ds sc lc).cnt = taken.length ∧
      (∀ pre d post, taken = pre ++ d :: post →
        0 < lc - ((pre.map (fun x => x.leaderState)).sum) ∧ 0 < d.leaderState) ∧
      ((leaderPhaseOf ds sc lc).rest = [] ∨ (leaderPhaseOf ds sc lc).remL ≤ 0 ∨
        ∀ d ∈ (leaderPhaseOf ds sc lc).rest.head?, d.leaderState ≤ 0) ∧
      (0 < (leaderPhaseOf ds sc lc).remL →
        simulateGreedy ds sc lc = (false, 0, none, none)) := by
  obtain ⟨taken, h1, h2, h3, h4, h5, h6⟩ :=
    leaderLoop_characterize (sortedDomainsWithLeader ds false) lc sc 0 none
  refine ⟨taken, h1, h2, h3, by simpa [leaderPhaseOf] using h4, h5, h6, ?_⟩
  intro hpos
  have hg : (greedyPhase1 ds sc lc).remL = (leaderPhaseOf ds sc lc).remL := by
    simp [greedyPhase1, hlc]
  rw [simulateGreedy_def, if_pos (by rw [hg]; exact hpos)]

/-- Input domain for witness instantiations: plenty of capacity, leader
eligible. -/
def wA : Domain := ⟨0, 2, 2, 2, 2, 1⟩

/-- C2, witness: the amended characterization applied to the concrete input
`[wA]`, `sliceCount = 2`, `leaderCount = 1`. -/
theorem simulateGreedy_leader_phase_characterization_witness :
    ∃ taken : List Domain,
      sortedDomainsWithLeader [wA] false = taken ++ (leaderPhaseOf [wA] 2 1).rest ∧
      (leaderPhaseOf [wA] 2 1).remL = 1 - (taken.map (fun d => d.leaderState)).sum ∧
      (leaderPhaseOf [wA] 2 1).remS
        = 2 - (taken.map (fun d => d.sliceStateWithLeader)).sum ∧
      (leaderPhaseOf [wA] 2 1).cnt = taken.length ∧
      (∀ pre d post, taken = pre ++ d :: post →
        0 < 1 - ((pre.map (fun x => x.leaderState)).sum) ∧ 0 < d.leaderState) ∧
      ((leaderPhaseOf [wA] 2 1).rest = [] ∨ (leaderPhaseOf [wA] 2 1).remL ≤ 0 ∨
        ∀ d ∈ (leaderPhaseOf [wA] 2 1).rest.head?, d.leaderState ≤ 0) ∧
      (0 < (leaderPhaseOf [wA] 2 1).remL →
        simulateGreedy [wA] 2 1 = (false, 0, none, none)) :=
  simulateGreedy_leader_phase_characterization [wA] 2 1 (by decide)

/-! ### Claim C10: the division in `balanceThresholdValue` is safe -/

/-- C10: whenever control reaches the division
`sliceCount / selectedDomainsCount` inside `balanceThresholdValue` — that is,
for a request that is not all-zero, on the candidate level chosen by
`balanceOnChildren`, with the greedy simulation reporting a fit — the
divisor is at least one, so the `int32` division cannot panic. -/
theorem balanceThreshold_division_safe (t : DomainTree) (sc lc : Int)
    (bal : Bool) (hsc : 0 ≤ sc) (hlc : 0 ≤ lc) (hnz : ¬(sc = 0 ∧ lc = 0))
    (hfit : (simulateGreedy (if bal then childrenOf t else grandchildrenOf t)
      sc lc).1 = true) :
    1 ≤ (simulateGreedy (if bal then childrenOf t else grandchildrenOf t)
        sc lc).2.1 ∧
      (simulateGreedy (if bal then childrenOf t else grandchildrenOf t)
        sc lc).2.1 ≠ 0 := by
  have h := simulateGreedy_fit_cnt_pos _ sc lc hsc hlc hnz hfit
  exact ⟨h, by omega⟩

/-- Starting domain for witness instantiations: one child with capacity 2. -/
def wTree : DomainTree := ⟨⟨9, 10, 10, 10, 10, 1⟩, [(wA, [])]⟩

/-- C10, witness: the division-safety theorem applied to `wTree` with
`sliceCount = 1`, `leaderCount = 0`, balancing on children. -/
theorem balanceThreshold_division_safe_witness :
    1 ≤ (simulateGreedy (if true then childrenOf wTree else grandchildrenOf wTree)
        1 0).2.1 ∧
      (simulateGreedy (if true then childrenOf wTree else grandchildrenOf wTree)
        1 0).2.1 ≠ 0 :=
  balanceThreshold_division_safe wTree 1 0 true (by decide) (by decide)
    (by decide) (by decide)

/-! ### Permutation facts for the stable sorts -/

/-- Inserting into a list is a permutation of consing. -/
theorem insertSorted_perm (before : Domain → Domain → Bool) (d : Domain)
    (l : List Domain) : List.Perm (insertSorted before d l) (d :: l) := by
  induction l with
  | nil => simp [insertSorted]
  | cons x xs ih =>
    rw [insertSorted]
    split
    · exact List.Perm.refl _
    · exact ((ih.cons x).trans (List.Perm.swap d x xs))

/-- The stable sort permutes its input. -/
theorem stableSortBy_perm (before : Domain → Domain → Bool) (l : List Domain) :
    List.Perm (stableSortBy before l) l := by
  induction l with
  | nil => simp [stableSortBy]
  | cons x xs ih =>
    exact (insertSorted_perm before x (stableSortBy before xs)).trans (ih.cons x)

/-- `sortedDomainsWithLeader` permutes its input. -/
theorem sortedDomainsWithLeader_perm (ds : List Domain) (asc : Bool) :
    List.Perm (sortedDomainsWithLeader ds asc) ds := by
  unfold sortedDomainsWithLeader
  split <;> exact stableSortBy_perm _ ds

/-- `sortedDomains` permutes its input. -/
theorem sortedDomains_perm (ds : List Domain) (asc : Bool) :
    List.Perm (sortedDomains ds asc) ds := by
  unfold sortedDomains
  split <;> exact stableSortBy_perm _ ds

/-! ### Claim C6: characterization of `balanceThresholdValue` -/

/-- The threshold value as the spec describes it: the floor of
`sliceCount / selectedCount` (Euclidean division by a positive count is the
floor), reduced by `min` with `lastDomainWithLeader.sliceStateWithLeader`
and with `lastDomain.sliceState` whenever either domain is present. -/
def refinedThreshold (g : Bool × Int × Option Domain × Option Domain)
    (sc : Int) : Int :=
  let t0 := sc / g.2.1
  let t1 :=
    match g.2.2.1 with
    | some d => min t0 d.sliceStateWithLeader
    | none => t0
  match g.2.2.2 with
  | some d => min t1 d.sliceState
  | none => t1

/-- C6: for a request with nonnegative counts that is not all-zero,
`balanceThresholdValue` returns `(T, true)` with `T` the refined
floor-of-mean threshold exactly when the starting domain covers the request
and the greedy simulation over the chosen children or grandchildren fits;
in every other case it returns `(0, false)`; and the all-zero request
returns `(0, true)`. -/
theorem balanceThresholdValue_characterization (t : DomainTree) (sc lc : Int)
    (bal : Bool) (hsc : 0 ≤ sc) (hlc : 0 ≤ lc) (hnz : 0 < sc ∨ 0 < lc) :
    (balanceThresholdValue t sc lc bal =
      if sc ≤ t.info.sliceStateWithLeader ∧ lc ≤ t.info.leaderState ∧
          (simulateGreedy (if bal then childrenOf t else grandchildrenOf t)
            sc lc).1 = true then
        (refinedThreshold
          (simulateGreedy (if bal then childrenOf t else grandchildrenOf t) sc lc)
          sc, true)
      else (0, false)) ∧
    balanceThresholdValue t 0 0 bal = (0, true) := by
  refine ⟨?_, by simp [balanceThresholdValue]⟩
  have hzero : ¬(sc = 0 ∧ lc = 0) := by omega
  unfold balanceThresholdValue
  rw [if_neg hzero]
  by_cases hcov : t.info.sliceStateWithLeader < sc ∨ t.info.leaderState < lc
  · rw [if_pos hcov, if_neg (by omega)]
  · rw [if_neg hcov]
    push_neg at hcov
    by_cases hfit : (simulateGreedy (if bal then childrenOf t else grandchildrenOf t)
        sc lc).1 = false
    · simp [hfit]
    · have hfit' : (simulateGreedy (if bal then childrenOf t else grandchildrenOf t)
          sc lc).1 = true := by
        cases h : (simulateGreedy (if bal then childrenOf t else grandchildrenOf t)
          sc lc).1
        · exact absurd h hfit
        · rfl
      have hdiv : Int.tdiv sc
          (simulateGreedy (if bal then childrenOf t else grandchildrenOf t) sc lc).2.1
          = sc / (simulateGreedy (if bal then childrenOf t else grandchildrenOf t)
              sc lc).2.1 :=
        Int.tdiv_eq_ediv hsc (simulateGreedy_cnt_nonneg _ _ _)
      have hc : sc ≤ t.info.sliceStateWithLeader ∧ lc ≤ t.info.leaderState ∧
          (simulateGreedy (if bal then childrenOf t else grandchildrenOf t)
            sc lc).1 = true :=
        ⟨hcov.1, hcov.2, hfit'⟩
      rw [if_pos hc]
      simp only [hfit', refinedThreshold, hdiv]
      simp

/-- C6, witness: the characterization applied to a concrete starting domain
with two children of capacity 2 and the request `(3, 1)`. -/
theorem balanceThresholdValue_characterization_witness :
    (balanceThresholdValue ⟨⟨9, 10, 10, 10, 10, 1⟩, [(wA, []), (⟨1, 2, 2, 2, 2, 0⟩, [])]⟩
        3 1 true =
      if (3 : Int) ≤ (⟨9, 10, 10, 10, 10, 1⟩ : Domain).sliceStateWithLeader ∧
          (1 : Int) ≤ (⟨9, 10, 10, 10, 10, 1⟩ : Domain).leaderState ∧
          (simulateGreedy
            (if true then
              childrenOf ⟨⟨9, 10, 10, 10, 10, 1⟩, [(wA, []), (⟨1, 2, 2, 2, 2, 0⟩, [])]⟩
            else
              grandchildrenOf ⟨⟨9, 10, 10, 10, 10, 1⟩, [(wA, []), (⟨1, 2, 2, 2, 2, 0⟩, [])]⟩)
            3 1).1 = true then
        (refinedThreshold
          (simulateGreedy
            (if true then
              childrenOf ⟨⟨9, 10, 10, 10, 10, 1⟩, [(wA, []), (⟨1, 2, 2, 2, 2, 0⟩, [])]⟩
            else
              grandchildrenOf ⟨⟨9, 10, 10, 10, 10, 1⟩, [(wA, []), (⟨1, 2, 2, 2, 2, 0⟩, [])]⟩)
            3 1)
          3, true)
      else (0, false)) ∧
    balanceThresholdValue ⟨⟨9, 10, 10, 10, 10, 1⟩, [(wA, []), (⟨1, 2, 2, 2, 2, 0⟩, [])]⟩
      0 0 true = (0, true) :=
  balanceThresholdValue_characterization
    ⟨⟨9, 10, 10, 10, 10, 1⟩, [(wA, []), (⟨1, 2, 2, 2, 2, 0⟩, [])]⟩ 3 1 true
    (by decide) (by decide) (by decide)

/-! ### Balancer-loop lemmas -/

/-- Unfolding equation for one balancer iteration. -/
theorem balanceLoop_cons (sz T : Int) (d : Domain) (rest : List Domain)
    (eL lL : Int) :
    balanceLoop sz T (d :: rest) eL lL =
      ((balanceStep sz T d eL lL).1 ::
        (balanceLoop sz T rest (balanceStep sz T d eL lL).2.1
          (balanceStep sz T d eL lL).2.2).1,
       (balanceLoop sz T rest (balanceStep sz T d eL lL).2.1
          (balanceStep sz T d eL lL).2.2).2) := rfl

/-- In every branch of the balancer switch the written `sliceState` equals
the threshold plus the extra slices actually taken. -/
theorem balanceStep_sliceState (sz T : Int) (d : Domain) (eL lL : Int) :
    (balanceStep sz T d eL lL).1.sliceState
      = T + (eL - (balanceStep sz T d eL lL).2.1) := by
  unfold balanceStep
  split
  · simp [updateDomain]
  split
  · simp [updateDomain]
  · simp [updateDomain]

/-- In every branch of the balancer switch the written `leaderState` equals
the decrease of `leadersLeft`. -/
theorem balanceStep_leaderState (sz T : Int) (d : Domain) (eL lL : Int) :
    (balanceStep sz T d eL lL).1.leaderState
      = lL - (balanceStep sz T d eL lL).2.2 := by
  unfold balanceStep
  split
  · simp [updateDomain]
  split
  · simp [updateDomain]
  · simp [updateDomain]

/-- `extraSlicesLeft` stays nonnegative through one balancer iteration. -/
theorem balanceStep_eL_nonneg (sz T : Int) (d : Domain) (eL lL : Int)
    (h : 0 ≤ eL) : 0 ≤ (balanceStep sz T d eL lL).2.1 := by
  unfold balanceStep
  split
  · simp only
    have := min_le_right (d.sliceStateWithLeader - T) eL
    omega
  split
  · simp only
    have := min_le_right (d.sliceState - T) eL
    omega
  · simpa using h

/-- `leadersLeft` stays nonnegative through one balancer iteration. -/
theorem balanceStep_lL_nonneg (sz T : Int) (d : Domain) (eL lL : Int)
    (h : 0 ≤ lL) : 0 ≤ (balanceStep sz T d eL lL).2.2 := by
  unfold balanceStep
  split
  · simp only; omega
  split
  · simpa using h
  · simpa using h

/-- The final `extraSlicesLeft` of the balancer loop is nonnegative when the
initial one is. -/
theorem balanceLoop_eL_nonneg (sz T : Int) (ds : List Domain) :
    ∀ (eL lL : Int), 0 ≤ eL → 0 ≤ (balanceLoop sz T ds eL lL).2.1 := by
  induction ds with
  | nil => intro eL lL h; simpa [balanceLoop] using h
  | cons d rest ih =>
    intro eL lL h
    rw [balanceLoop_cons]
    exact ih _ _ (balanceStep_eL_nonneg sz T d eL lL h)

/-- The final `leadersLeft` of the balancer loop is nonnegative when the
initial one is. -/
theorem balanceLoop_lL_nonneg (sz T : Int) (ds : List Domain) :
    ∀ (eL lL : Int), 0 ≤ lL → 0 ≤ (balanceLoop sz T ds eL lL).2.2 := by
  induction ds with
  | nil => intro eL lL h; simpa [balanceLoop] using h
  | cons d rest ih =>
    intro eL lL h
    rw [balanceLoop_cons]
    exact ih _ _ (balanceStep_lL_nonneg sz T d eL lL h)

/-- The number of domains placed by the balancer loop equals the number of
domains given to it. -/
theorem balanceLoop_length (sz T : Int) (ds : List Domain) :
    ∀ (eL lL : Int), (balanceLoop sz T ds eL lL).1.length = ds.length := by
  induction ds with
  | nil => intro eL lL; simp [balanceLoop]
  | cons d rest ih =>
    intro eL lL
    rw [balanceLoop_cons]
    simp [ih]

/-- Slice and leader conservation of the balancer loop: the written
`sliceState` values sum to `length * threshold` plus the consumed extra
slices, and the written `leaderState` values sum to the consumed leaders. -/
theorem balanceLoop_sums (sz T : Int) (ds : List Domain) :
    ∀ (eL lL : Int),
      ((balanceLoop sz T ds eL lL).1.map (fun d => d.sliceState)).sum
          = (ds.length : Int) * T + (eL - (balanceLoop sz T ds eL lL).2.1) ∧
      ((balanceLoop sz T ds eL lL).1.map (fun d => d.leaderState)).sum
          = lL - (balanceLoop sz T ds eL lL).2.2 := by
  induction ds with
  | nil => intro eL lL; simp [balanceLoop]
  | cons d rest ih =>
    intro eL lL
    rw [balanceLoop_cons]
    obtain ⟨ihS, ihL⟩ := ih (balanceStep sz T d eL lL).2.1 (balanceStep sz T d eL lL).2.2
    constructor
    · simp only [List.map_cons, List.sum_cons, List.length_cons, ihS,
        balanceStep_sliceState]
      push_cast
      ring
    · simp only [List.map_cons, List.sum_cons, ihL, balanceStep_leaderState]
      ring

/-- Every domain written by the balancer loop has `sliceState` at least the
threshold, provided the extra budget is nonnegative and every input domain's
with-leader capacity is at least the threshold. -/
theorem balanceStep_floor (sz T : Int) (d : Domain) (eL lL : Int)
    (h1 : T ≤ d.sliceStateWithLeader) (h2 : d.sliceStateWithLeader ≤ d.sliceState)
    (heL : 0 ≤ eL) : T ≤ (balanceStep sz T d eL lL).1.sliceState := by
  unfold balanceStep
  split
  · have h3 := le_min (by omega : (0:Int) ≤ d.sliceStateWithLeader - T) heL
    simp only [updateDomain]
    omega
  split
  · have h3 := le_min (by omega : (0:Int) ≤ d.sliceState - T) heL
    simp only [updateDomain]
    omega
  · simp only [updateDomain]
    omega

/-- One balancer iteration keeps `0 ≤ sliceStateWithLeader ≤ sliceState` on
the written domain, provided the threshold is at least one, the domain's
with-leader capacity is at least one, and the extra budget is nonnegative. -/
theorem balanceStep_bounds (sz T : Int) (d : Domain) (eL lL : Int)
    (hT : 1 ≤ T) (h1 : 1 ≤ d.sliceStateWithLeader)
    (h2 : d.sliceStateWithLeader ≤ d.sliceState) (heL : 0 ≤ eL) :
    0 ≤ (balanceStep sz T d eL lL).1.sliceStateWithLeader ∧
      (balanceStep sz T d eL lL).1.sliceStateWithLeader
        ≤ (balanceStep sz T d eL lL).1.sliceState := by
  unfold balanceStep
  split
  · rcases min_choice (d.sliceStateWithLeader - T) eL with h | h <;>
      · simp only [updateDomain]
        omega
  split
  · rcases min_choice (d.sliceState - T) eL with h | h <;>
      · simp only [updateDomain]
        omega
  · simp only [updateDomain]
    omega

/-- Loop version of the threshold floor. -/
theorem balanceLoop_floor (sz T : Int) (ds : List Domain) :
    ∀ (eL lL : Int), 0 ≤ eL →
      (∀ d ∈ ds, T ≤ d.sliceStateWithLeader ∧ d.sliceStateWithLeader ≤ d.sliceState) →
      ∀ d' ∈ (balanceLoop sz T ds eL lL).1, T ≤ d'.sliceState := by
  induction ds with
  | nil => intro eL lL _ _ d' hd'; simp [balanceLoop] at hd'
  | cons d rest ih =>
    intro eL lL heL hcap d' hd'
    rw [balanceLoop_cons] at hd'
    rcases List.mem_cons.mp hd' with h | h
    · subst h
      exact balanceStep_floor sz T d eL lL (hcap d (by simp)).1 (hcap d (by simp)).2 heL
    · exact ih _ _ (balanceStep_eL_nonneg sz T d eL lL heL)
        (fun x hx => hcap x (by simp [hx])) d' h

/-- Loop version of the capacity-invariant bounds. -/
theorem balanceLoop_bounds (sz T : Int) (ds : List Domain) :
    ∀ (eL lL : Int), 0 ≤ eL → 1 ≤ T →
      (∀ d ∈ ds, 1 ≤ d.sliceStateWithLeader ∧ d.sliceStateWithLeader ≤ d.sliceState) →
      ∀ d' ∈ (balanceLoop sz T ds eL lL).1,
        0 ≤ d'.sliceStateWithLeader ∧ d'.sliceStateWithLeader ≤ d'.sliceState := by
  induction ds with
  | nil => intro eL lL _ _ _ d' hd'; simp [balanceLoop] at hd'
  | cons d rest ih =>
    intro eL lL heL hT hcap d' hd'
    rw [balanceLoop_cons] at hd'
    rcases List.mem_cons.mp hd' with h | h
    · subst h
      exact balanceStep_bounds sz T d eL lL hT (hcap d (by simp)).1
        (hcap d (by simp)).2 heL
    · exact ih _ _ (balanceStep_eL_nonneg sz T d eL lL heL) hT
        (fun x hx => hcap x (by simp [hx])) d' h

/-- Elements of the post-call list are updated domains or original
domains. -/
theorem applyUpdates_mem (updated domains : List Domain) :
    ∀ x ∈ applyUpdates updated domains, x ∈ updated ∨ x ∈ domains := by
  intro x hx
  simp only [applyUpdates, List.mem_map] at hx
  obtain ⟨d, hd, hxd⟩ := hx
  cases hf : updated.find? (fun u => u.id = d.id) with
  | none =>
    right
    rw [← hxd, hf]
    simpa using hd
  | some u =>
    left
    rw [← hxd, hf]
    simpa using List.mem_of_find?_eq_some hf

/-! ### Dissection of `placeSlicesOnDomainsBalanced` -/

/-- When the DP returns `nil`, the placement fails with the first diagnostic
and the domains are returned untouched. -/
theorem placeSlices_none_eq (domains : List Domain) (sc lc sz T : Int)
    (hsel : selectOptimalDomainSetToFit domains sc lc sz = none) :
    placeSlicesOnDomainsBalanced domains sc lc sz T =
      (none, "TAS Balanced Placement Error: Cannot find optimal domain set to fit",
        domains) := by
  unfold placeSlicesOnDomainsBalanced
  rw [hsel]

/-- When the threshold guard fails, the placement fails with the second
diagnostic and the domains are returned untouched. -/
theorem placeSlices_guard_eq (domains : List Domain) (sc lc sz T : Int)
    (sel : List Domain)
    (hsel : selectOptimalDomainSetToFit domains sc lc sz = some sel)
    (hguard : sc < (sel.length : Int) * T) :
    placeSlicesOnDomainsBalanced domains sc lc sz T =
      (none, "TAS Balanced Placement Error: Not enough slices to meet the threshold",
        domains) := by
  unfold placeSlicesOnDomainsBalanced
  rw [hsel]
  simp only [if_pos hguard]

/-- When the DP succeeds and the guard passes, the placement is the balancer
loop's output, kept on success and discarded (after mutation) when slices or
leaders are left over. -/
theorem placeSlices_run_eq (domains : List Domain) (sc lc sz T : Int)
    (sel : List Domain)
    (hsel : selectOptimalDomainSetToFit domains sc lc sz = some sel)
    (hguard : ¬ sc < (sel.length : Int) * T) :
    placeSlicesOnDomainsBalanced domains sc lc sz T =
      (if 0 < (balanceLoop sz T (sortedDomainsWithLeader sel false)
            (sc - (sel.length : Int) * T) lc).2.1 ∨
          0 < (balanceLoop sz T (sortedDomainsWithLeader sel false)
            (sc - (sel.length : Int) * T) lc).2.2 then
        (none,
          "TAS Balanced Placement Error: Not all slices or leaders could be placed",
          applyUpdates (balanceLoop sz T (sortedDomainsWithLeader sel false)
            (sc - (sel.length : Int) * T) lc).1 domains)
      else
        (some (balanceLoop sz T (sortedDomainsWithLeader sel false)
            (sc - (sel.length : Int) * T) lc).1, "",
          applyUpdates (balanceLoop sz T (sortedDomainsWithLeader sel false)
            (sc - (sel.length : Int) * T) lc).1 domains)) := by
  unfold placeSlicesOnDomainsBalanced
  rw [hsel]
  simp only [if_neg hguard]

/-! ### Claim C3: mutation on failure -/

/-- Leader-eligible candidate with the largest with-leader capacity. -/
def cexC3c : Domain := ⟨0, 5, 5, 5, 5, 1⟩

/-- Large domain, not leader-eligible, with small with-leader capacity. -/
def cexC3a : Domain := ⟨1, 10, 4, 10, 4, 0⟩

/-- Small leader-eligible domain. -/
def cexC3b : Domain := ⟨2, 3, 3, 3, 3, 1⟩

/-- C3, counterexample: on this input `placeSlicesOnDomainsBalanced` returns
a nil placement with the residual diagnostic, yet the post-call domain list
differs from the pre-call one — the balancer loop mutates the selected
domains before its final `extraSlicesLeft > 0 || leadersLeft > 0` check. -/
theorem placeSlices_mutates_on_failure_cex :
    (placeSlicesOnDomainsBalanced [cexC3c, cexC3a, cexC3b] 13 1 1 0).1 = none ∧
    (placeSlicesOnDomainsBalanced [cexC3c, cexC3a, cexC3b] 13 1 1 0).2.1
      = "TAS Balanced Placement Error: Not all slices or leaders could be placed" ∧
    (placeSlicesOnDomainsBalanced [cexC3c, cexC3a, cexC3b] 13 1 1 0).2.2
      ≠ [cexC3c, cexC3a, cexC3b] := by
  refine ⟨?_, ?_, ?_⟩ <;> decide

/-- C3 (amended): a failing placement leaves every domain unchanged on the
two failure paths that precede the balancer loop (DP returned nil, or the
threshold guard failed); only the residual-check failure path can return
mutated domains. -/
theorem placeSlices_pure_on_early_failure (domains : List Domain)
    (sc lc sz T : Int)
    (hfail : (placeSlicesOnDomainsBalanced domains sc lc sz T).1 = none)
    (hdiag : (placeSlicesOnDomainsBalanced domains sc lc sz T).2.1 ≠
      "TAS Balanced Placement Error: Not all slices or leaders could be placed") :
    (placeSlicesOnDomainsBalanced domains sc lc sz T).2.2 = domains := by
  cases hsel : selectOptimalDomainSetToFit domains sc lc sz with
  | none => rw [placeSlices_none_eq domains sc lc sz T hsel]
  | some sel =>
    by_cases hguard : sc < (sel.length : Int) * T
    · rw [placeSlices_guard_eq domains sc lc sz T sel hsel hguard]
    · rw [placeSlices_run_eq domains sc lc sz T sel hsel hguard] at hfail hdiag
      by_cases hcond : 0 < (balanceLoop sz T (sortedDomainsWithLeader sel false)
            (sc - (sel.length : Int) * T) lc).2.1 ∨
          0 < (balanceLoop sz T (sortedDomainsWithLeader sel false)
            (sc - (sel.length : Int) * T) lc).2.2
      · rw [if_pos hcond] at hdiag
        exact absurd rfl hdiag
      · rw [if_neg hcond] at hfail
        exact absurd hfail (by simp)

/-- C3, witness: the amended purity statement applied to an infeasible
request, which fails on the first path and returns the domains untouched. -/
theorem placeSlices_pure_on_early_failure_witness :
    (placeSlicesOnDomainsBalanced [wA] 50 0 1 0).2.2 = [wA] :=
  placeSlices_pure_on_early_failure [wA] 50 0 1 0 (by decide) (by decide)

/-! ### Claim C5: conservation on success -/

/-- C5: on success, the final `sliceState` values of the returned placement
sum to `sliceCount` and the final `leaderState` values sum to
`leaderCount`. -/
theorem placeSlices_conservation (domains : List Domain) (sc lc sz T : Int)
    (placed : List Domain) (hsc : 0 ≤ sc) (hlc : 0 ≤ lc) (hsz : 1 ≤ sz)
    (hres : (placeSlicesOnDomainsBalanced domains sc lc sz T).1 = some placed) :
    (placed.map (fun d => d.sliceState)).sum = sc ∧
      (placed.map (fun d => d.leaderState)).sum = lc := by
  cases hsel : selectOptimalDomainSetToFit domains sc lc sz with
  | none =>
    rw [placeSlices_none_eq domains sc lc sz T hsel] at hres
    exact absurd hres (by simp)
  | some sel =>
    by_cases hguard : sc < (sel.length : Int) * T
    · rw [placeSlices_guard_eq domains sc lc sz T sel hsel hguard] at hres
      exact absurd hres (by simp)
    · have hlen : (sortedDomainsWithLeader sel false).length = sel.length :=
        (sortedDomainsWithLeader_perm sel false).length_eq
      have heL0 : (0 : Int) ≤ sc - (sel.length : Int) * T := by omega
      have hsums := balanceLoop_sums sz T (sortedDomainsWithLeader sel false)
        (sc - (sel.length : Int) * T) lc
      have heL := balanceLoop_eL_nonneg sz T (sortedDomainsWithLeader sel false)
        (sc - (sel.length : Int) * T) lc heL0
      have hlL := balanceLoop_lL_nonneg sz T (sortedDomainsWithLeader sel false)
        (sc - (sel.length : Int) * T) lc hlc
      rw [placeSlices_run_eq domains sc lc sz T sel hsel hguard] at hres
      by_cases hcond : 0 < (balanceLoop sz T (sortedDomainsWithLeader sel false)
            (sc - (sel.length : Int) * T) lc).2.1 ∨
          0 < (balanceLoop sz T (sortedDomainsWithLeader sel false)
            (sc - (sel.length : Int) * T) lc).2.2
      · rw [if_pos hcond] at hres
        exact absurd hres (by simp)
      · rw [if_neg hcond] at hres
        have hplaced : (balanceLoop sz T (sortedDomainsWithLeader sel false)
            (sc - (sel.length : Int) * T) lc).1 = placed := by
          simpa using hres
        push_neg at hcond
        have h1 : (balanceLoop sz T (sortedDomainsWithLeader sel false)
            (sc - (sel.length : Int) * T) lc).2.1 = 0 :=
          le_antisymm hcond.1 heL
        have h2 : (balanceLoop sz T (sortedDomainsWithLeader sel false)
            (sc - (sel.length : Int) * T) lc).2.2 = 0 :=
          le_antisymm hcond.2 hlL
        rw [← hplaced]
        refine ⟨?_, ?_⟩
        · rw [hsums.1, hlen, h1]; ring
        · rw [hsums.2, h2]; ring

/-- C5, witness: conservation applied to the concrete success
`placeSlicesOnDomainsBalanced [wA] 2 1 1 1`. -/
theorem placeSlices_conservation_witness :
    (([⟨0, 2, 1, 2, 1, 1⟩] : List Domain).map (fun d => d.sliceState)).sum = 2 ∧
      (([⟨0, 2, 1, 2, 1, 1⟩] : List Domain).map (fun d => d.leaderState)).sum = 1 :=
  placeSlices_conservation [wA] 2 1 1 1 [⟨0, 2, 1, 2, 1, 1⟩]
    (by decide) (by decide) (by decide) (by decide)

/-! ### Claim C4: threshold floor on success -/

/-- Small leader-eligible domain whose capacities are below the threshold of
the counterexample. -/
def cexC4a : Domain := ⟨0, 1, 1, 1, 1, 1⟩

/-- Domain with zero with-leader capacity but large plain capacity. -/
def cexC4b : Domain := ⟨1, 5, 0, 5, 0, 0⟩

/-- C4, counterexample: with nonnegative counts, `sliceSize = 1` and
`threshold = 3`, the call succeeds (non-nil placement, empty diagnostic) but
the first returned domain has final `sliceState = 1 < 3`: the leader branch
can take a negative number of extra slices, dropping a selected domain below
the threshold. -/
theorem placeSlices_threshold_floor_cex :
    (placeSlicesOnDomainsBalanced [cexC4a, cexC4b] 6 1 1 3).1
      = some [⟨0, 1, 0, 1, 0, 1⟩, ⟨1, 5, 5, 5, 5, 0⟩] ∧
    (placeSlicesOnDomainsBalanced [cexC4a, cexC4b] 6 1 1 3).2.1 = "" ∧
    ¬ (3 : Int) ≤ (⟨0, 1, 0, 1, 0, 1⟩ : Domain).sliceState := by
  refine ⟨?_, ?_, ?_⟩ <;> decide

/-- C4 (amended): on success every domain of the returned placement has
final `sliceState ≥ threshold`, provided every selected domain's
capacities satisfy `threshold ≤ sliceStateWithLeader ≤ sliceState` before
the call. -/
theorem placeSlices_threshold_floor (domains : List Domain) (sc lc sz T : Int)
    (placed : List Domain) (hsc : 0 ≤ sc) (hlc : 0 ≤ lc) (hsz : 1 ≤ sz)
    (hcap : ∀ d ∈ (selectOptimalDomainSetToFit domains sc lc sz).getD [],
      T ≤ d.sliceStateWithLeader ∧ d.sliceStateWithLeader ≤ d.sliceState)
    (hres : (placeSlicesOnDomainsBalanced domains sc lc sz T).1 = some placed) :
    ∀ d ∈ placed, T ≤ d.sliceState := by
  cases hsel : selectOptimalDomainSetToFit domains sc lc sz with
  | none =>
    rw [placeSlices_none_eq domains sc lc sz T hsel] at hres
    exact absurd hres (by simp)
  | some sel =>
    rw [hsel] at hcap
    simp only [Option.getD_some] at hcap
    by_cases hguard : sc < (sel.length : Int) * T
    · rw [placeSlices_guard_eq domains sc lc sz T sel hsel hguard] at hres
      exact absurd hres (by simp)
    · have heL0 : (0 : Int) ≤ sc - (sel.length : Int) * T := by omega
      rw [placeSlices_run_eq domains sc lc sz T sel hsel hguard] at hres
      by_cases hcond : 0 < (balanceLoop sz T (sortedDomainsWithLeader sel false)
            (sc - (sel.length : Int) * T) lc).2.1 ∨
          0 < (balanceLoop sz T (sortedDomainsWithLeader sel false)
            (sc - (sel.length : Int) * T) lc).2.2
      · rw [if_pos hcond] at hres
        exact absurd hres (by simp)
      · rw [if_neg hcond] at hres
        have hplaced : (balanceLoop sz T (sortedDomainsWithLeader sel false)
            (sc - (sel.length : Int) * T) lc).1 = placed := by
          simpa using hres
        rw [← hplaced]
        exact balanceLoop_floor sz T (sortedDomainsWithLeader sel false)
          (sc - (sel.length : Int) * T) lc heL0
          (fun d hd => hcap d ((sortedDomainsWithLeader_perm sel false).mem_iff.mp hd))

/-- C4, witness: the amended threshold floor applied to the concrete success
`placeSlicesOnDomainsBalanced [wA] 2 1 1 1`, instantiated at the single
returned domain. -/
theorem placeSlices_threshold_floor_witness :
    (1 : Int) ≤ (⟨0, 2, 1, 2, 1, 1⟩ : Domain).sliceState :=
  placeSlices_threshold_floor [wA] 2 1 1 1 [⟨0, 2, 1, 2, 1, 1⟩]
    (by decide) (by decide) (by decide) (by decide) (by decide)
    ⟨0, 2, 1, 2, 1, 1⟩ (by decide)

/-! ### Claim C8: the capacity invariant across a call -/

/-- Leader-eligible domain with zero capacity. -/
def cexC8 : Domain := ⟨0, 0, 0, 0, 0, 1⟩

/-- C8, counterexample: the input satisfies
`0 ≤ sliceStateWithLeader ≤ sliceState`, the counts are nonnegative and
`sliceSize = 1`, yet after the (successful) call the domain's
`sliceStateWithLeader` is `-1`: placing a leader on a zero-capacity domain
drives the invariant below zero. -/
theorem placeSlices_invariant_cex :
    (0 ≤ cexC8.sliceStateWithLeader ∧
      cexC8.sliceStateWithLeader ≤ cexC8.sliceState) ∧
    (placeSlicesOnDomainsBalanced [cexC8] 0 1 1 0).2.2 = [⟨0, 0, -1, 0, -1, 1⟩] ∧
    ¬ 0 ≤ (⟨0, 0, -1, 0, -1, 1⟩ : Domain).sliceStateWithLeader := by
  refine ⟨?_, ?_, ?_⟩ <;> decide

/-- C8 (amended): `0 ≤ sliceStateWithLeader ≤ sliceState` is preserved for
every domain, whatever the call returns, provided additionally that the
threshold is at least one and every selected domain has
`1 ≤ sliceStateWithLeader ≤ sliceState` before the call. -/
theorem placeSlices_invariant_preserved (domains : List Domain)
    (sc lc sz T : Int) (hsc : 0 ≤ sc) (hlc : 0 ≤ lc) (hsz : 1 ≤ sz)
    (hT : 1 ≤ T)
    (hinv : ∀ d ∈ domains,
      0 ≤ d.sliceStateWithLeader ∧ d.sliceStateWithLeader ≤ d.sliceState)
    (hcap : ∀ d ∈ (selectOptimalDomainSetToFit domains sc lc sz).getD [],
      1 ≤ d.sliceStateWithLeader ∧ d.sliceStateWithLeader ≤ d.sliceState) :
    ∀ d ∈ (placeSlicesOnDomainsBalanced domains sc lc sz T).2.2,
      0 ≤ d.sliceStateWithLeader ∧ d.sliceStateWithLeader ≤ d.sliceState := by
  cases hsel : selectOptimalDomainSetToFit domains sc lc sz with
  | none =>
    rw [placeSlices_none_eq domains sc lc sz T hsel]
    exact hinv
  | some sel =>
    rw [hsel] at hcap
    simp only [Option.getD_some] at hcap
    by_cases hguard : sc < (sel.length : Int) * T
    · rw [placeSlices_guard_eq domains sc lc sz T sel hsel hguard]
      exact hinv
    · have heL0 : (0 : Int) ≤ sc - (sel.length : Int) * T := by omega
      have hloop := balanceLoop_bounds sz T (sortedDomainsWithLeader sel false)
        (sc - (sel.length : Int) * T) lc heL0 hT
        (fun d hd => hcap d ((sortedDomainsWithLeader_perm sel false).mem_iff.mp hd))
      rw [placeSlices_run_eq domains sc lc sz T sel hsel hguard]
      intro d hd
      have hpost : d ∈ applyUpdates (balanceLoop sz T (sortedDomainsWithLeader sel false)
          (sc - (sel.length : Int) * T) lc).1 domains := by
        by_cases hcond : 0 < (balanceLoop sz T (sortedDomainsWithLeader sel false)
              (sc - (sel.length : Int) * T) lc).2.1 ∨
            0 < (balanceLoop sz T (sortedDomainsWithLeader sel false)
              (sc - (sel.length : Int) * T) lc).2.2
        · rw [if_pos hcond] at hd
          exact hd
        · rw [if_neg hcond] at hd
          exact hd
      rcases applyUpdates_mem _ domains d hpost with h | h
      · exact hloop d h
      · exact hinv d h

/-- C8, witness: the amended invariant preservation applied to the concrete
call `placeSlicesOnDomainsBalanced [wA] 2 1 1 1`, instantiated at the single
post-call domain. -/
theorem placeSlices_invariant_preserved_witness :
    0 ≤ (⟨0, 2, 1, 2, 1, 1⟩ : Domain).sliceStateWithLeader ∧
      (⟨0, 2, 1, 2, 1, 1⟩ : Domain).sliceStateWithLeader
        ≤ (⟨0, 2, 1, 2, 1, 1⟩ : Domain).sliceState :=
  placeSlices_invariant_preserved [wA] 2 1 1 1
    (by decide) (by decide) (by decide) (by decide) (by decide) (by decide)
    ⟨0, 2, 1, 2, 1, 1⟩ (by decide)

/-! ### DP table machinery: cell membership -/

/-- `max?` characterization specialized to `Int`. -/
theorem int_max?_eq_some_iff (xs : List Int) (a : Int) :
    xs.max? = some a ↔ a ∈ xs ∧ ∀ b ∈ xs, b ≤ a :=
  @List.max?_eq_some_iff Int a _ _ ⟨fun h h' => le_antisymm h h'⟩
    (fun x => le_refl x) (fun x y => max_choice x y) (fun _ _ _ => max_le_iff) xs

/-- A placement value stored somewhere in an inner map. -/
def ValMem (pl : List Domain) (inner : InnerMap) : Prop :=
  ∃ q ∈ inner, q.2 = pl

/-- A placement value stored somewhere in a layer map. -/
def CellMem (pl : List Domain) (m : LevelMap) : Prop :=
  ∃ p ∈ m, ValMem pl p.2

/-- Entries of a write-if-absent insertion are old entries or the written
pair. -/
theorem mem_insertIfAbsent (k : Int) (v : List Domain) (inner : InnerMap) :
    ∀ x ∈ insertIfAbsent k v inner, x = (k, v) ∨ x ∈ inner := by
  induction inner with
  | nil => intro x hx; simpa [insertIfAbsent] using hx
  | cons q rest ih =>
    intro x hx
    unfold insertIfAbsent at hx
    split at hx
    · rcases List.mem_cons.mp hx with h | h
      · exact Or.inl h
      · exact Or.inr h
    · split at hx
      · exact Or.inr hx
      · rcases List.mem_cons.mp hx with h | h
        · exact Or.inr (by simp [h])
        · rcases ih x h with h' | h'
          · exact Or.inl h'
          · exact Or.inr (by simp [h'])

/-- Values stored by a write-if-absent insertion are old values or the
written value. -/
theorem valMem_insertIfAbsent (k : Int) (v : List Domain) (inner : InnerMap)
    (pl : List Domain) (h : ValMem pl (insertIfAbsent k v inner)) :
    ValMem pl inner ∨ pl = v := by
  obtain ⟨q, hq, hq2⟩ := h
  rcases mem_insertIfAbsent k v inner q hq with h' | h'
  · right; rw [← hq2, h']
  · left; exact ⟨q, h', hq2⟩

/-- Values stored by a layer insertion are old values or the written
value. -/
theorem cellMem_levelInsert (l s : Int) (v : List Domain) (m : LevelMap)
    (pl : List Domain) (h : CellMem pl (levelInsert l s v m)) :
    CellMem pl m ∨ pl = v := by
  induction m with
  | nil =>
    obtain ⟨p, hp, hval⟩ := h
    simp only [levelInsert, List.mem_singleton] at hp
    subst hp
    obtain ⟨q, hq, hq2⟩ := hval
    simp only [List.mem_singleton] at hq
    subst hq
    exact Or.inr hq2.symm
  | cons p0 rest ih =>
    obtain ⟨p, hp, hval⟩ := h
    unfold levelInsert at hp
    split at hp
    · rcases List.mem_cons.mp hp with h' | h'
      · subst h'
        obtain ⟨q, hq, hq2⟩ := hval
        simp only [List.mem_singleton] at hq
        subst hq
        exact Or.inr hq2.symm
      · exact Or.inl ⟨p, h', hval⟩
    · split at hp
      · rcases List.mem_cons.mp hp with h' | h'
        · subst h'
          rcases valMem_insertIfAbsent s v p0.2 pl hval with h'' | h''
          · exact Or.inl ⟨p0, by simp, h''⟩
          · exact Or.inr h''
        · exact Or.inl ⟨p, by simp [h'], hval⟩
      · rcases List.mem_cons.mp hp with h' | h'
        · exact Or.inl ⟨p, by simp [h'], hval⟩
        · rcases ih ⟨p, h', hval⟩ with h'' | h''
          · obtain ⟨p', hp', hval'⟩ := h''
            exact Or.inl ⟨p', by simp [hp'], hval'⟩
          · exact Or.inr h''

/-- Values stored by processing one cell are old values or the extended
placement. -/
theorem cellMem_processCell (d : Domain) (l s : Int) (v : List Domain)
    (acc : LevelMap) (pl : List Domain)
    (h : CellMem pl (processCell d l s v acc)) :
    CellMem pl acc ∨ pl = v ++ [d] := by
  unfold processCell at h
  split at h
  · exact Or.inl h
  · split at h
    · split at h
      · rcases cellMem_levelInsert _ _ _ _ _ h with h' | h'
        · rcases cellMem_levelInsert _ _ _ _ _ h' with h'' | h''
          · exact Or.inl h''
          · exact Or.inr h''
        · exact Or.inr h'
      · rcases cellMem_levelInsert _ _ _ _ _ h with h' | h'
        · exact Or.inl h'
        · exact Or.inr h'
    · split at h
      · rcases cellMem_levelInsert _ _ _ _ _ h with h' | h'
        · exact Or.inl h'
        · exact Or.inr h'
      · exact Or.inl h

/-- Unfolding equation for `processLevel` over a cons. -/
theorem processLevel_cons (d : Domain) (p : Int × InnerMap) (rest : LevelMap)
    (cur : LevelMap) :
    processLevel d (p :: rest) cur =
      processLevel d rest
        (p.2.foldl (fun acc2 q => processCell d p.1 q.1 q.2 acc2) cur) := rfl

/-- Values after folding one inner map into the accumulator are old values
or extended placements of that inner map. -/
theorem cellMem_innerFold (d : Domain) (l : Int) (inner : InnerMap) :
    ∀ (acc : LevelMap) (pl : List Domain),
      CellMem pl (inner.foldl (fun acc2 q => processCell d l q.1 q.2 acc2) acc) →
      CellMem pl acc ∨ ∃ q ∈ inner, pl = q.2 ++ [d] := by
  induction inner with
  | nil => intro acc pl h; exact Or.inl h
  | cons q rest ih =>
    intro acc pl h
    rw [List.foldl_cons] at h
    rcases ih _ pl h with h' | ⟨q', hq', hpl⟩
    · rcases cellMem_processCell d l q.1 q.2 acc pl h' with h'' | hpl
      · exact Or.inl h''
      · exact Or.inr ⟨q, by simp, hpl⟩
    · exact Or.inr ⟨q', by simp [hq'], hpl⟩

/-- Values after processing a whole layer are old values of the accumulator
or extended placements of the previous layer. -/
theorem cellMem_processLevel (d : Domain) (prev : LevelMap) :
    ∀ (cur : LevelMap) (pl : List Domain),
      CellMem pl (processLevel d prev cur) →
      CellMem pl cur ∨ ∃ p ∈ prev, ∃ q ∈ p.2, pl = q.2 ++ [d] := by
  induction prev with
  | nil => intro cur pl h; exact Or.inl h
  | cons p rest ih =>
    intro cur pl h
    rw [processLevel_cons] at h
    rcases ih _ pl h with h' | ⟨p', hp', q', hq', hpl⟩
    · rcases cellMem_innerFold d p.1 p.2 cur pl h' with h'' | ⟨q, hq, hpl⟩
      · exact Or.inl h''
      · exact Or.inr ⟨p, by simp, q, hq, hpl⟩
    · exact Or.inr ⟨p', by simp [hp'], q', hq', hpl⟩

/-- Generic transport of an indexed cell invariant through `processAux`:
cells of the rebuilt layers are old cells of the same layer or one-step
extensions of cells of the layer below. -/
theorem cellMem_processAux (d : Domain) (Q R : Nat → List Domain → Prop)
    (hmono : ∀ i pl, Q i pl → R i pl)
    (hstep : ∀ i pl, Q i pl → R (i + 1) (pl ++ [d])) :
    ∀ (ts : List LevelMap) (prev : LevelMap) (i0 : Nat),
      (∀ pl, CellMem pl prev → Q i0 pl) →
      (∀ k pl, CellMem pl (ts.getD k []) → Q (i0 + 1 + k) pl) →
      ∀ k pl, CellMem pl ((processAux d prev ts).getD k []) → R (i0 + 1 + k) pl := by
  intro ts
  induction ts with
  | nil =>
    intro prev i0 _ _ k pl h
    simp only [processAux] at h
    rw [List.getD] at h
    simp [CellMem] at h
  | cons t ts ih =>
    intro prev i0 hprev hts k pl h
    cases k with
    | zero =>
      simp only [processAux, List.getD_cons_zero] at h
      rcases cellMem_processLevel d prev t pl h with h' | ⟨p, hp, q, hq, hpl⟩
      · exact hmono _ _ (hts 0 pl (by simpa using h'))
      · subst hpl
        exact hstep i0 q.2 (hprev q.2 ⟨p, hp, q, hq, rfl⟩)
    | succ k =>
      simp only [processAux, List.getD_cons_succ] at h
      have hts' : ∀ k pl, CellMem pl (ts.getD k []) → Q (i0 + 1 + 1 + k) pl := by
        intro k pl h'
        have := hts (k + 1) pl (by simpa using h')
        have harith : i0 + 1 + (k + 1) = i0 + 1 + 1 + k := by omega
        rwa [harith] at this
      have hprev' : ∀ pl, CellMem pl t → Q (i0 + 1) pl := by
        intro pl h'
        simpa using hts 0 pl (by simpa using h')
      have := ih t (i0 + 1) hprev' hts' k pl h
      have harith : i0 + 1 + 1 + k = i0 + 1 + (k + 1) := by omega
      rwa [harith] at this

/-- Generic transport of an indexed cell invariant through one candidate's
pass over the table. -/
theorem cellMem_processDomainGo (d : Domain) (Q R : Nat → List Domain → Prop)
    (hmono : ∀ i pl, Q i pl → R i pl)
    (hstep : ∀ i pl, Q i pl → R (i + 1) (pl ++ [d]))
    (t : List LevelMap)
    (ht : ∀ i pl, CellMem pl (t.getD i []) → Q i pl) :
    ∀ i pl, CellMem pl ((processDomainGo d t).getD i []) → R i pl := by
  cases t with
  | nil =>
    intro i pl h
    simp only [processDomainGo] at h
    rw [List.getD] at h
    simp [CellMem] at h
  | cons t0 rest =>
    intro i pl h
    cases i with
    | zero =>
      simp only [processDomainGo, List.getD_cons_zero] at h
      exact hmono 0 pl (ht 0 pl (by simpa using h))
    | succ k =>
      simp only [processDomainGo, List.getD_cons_succ] at h
      have hts : ∀ k pl, CellMem pl (rest.getD k []) → Q (0 + 1 + k) pl := by
        intro k pl h'
        have := ht (k + 1) pl (by simpa using h')
        have harith : k + 1 = 0 + 1 + k := by omega
        rwa [harith] at this
      have := cellMem_processAux d Q R hmono hstep rest t0 0
        (fun pl h' => ht 0 pl (by simpa using h')) hts k pl h
      have harith : 0 + 1 + k = k + 1 := by omega
      rwa [harith] at this

/-- `getD` of a replicated empty layer list is empty. -/
theorem getD_replicate_nil (n k : Nat) :
    (List.replicate n ([] : LevelMap)).getD k [] = [] := by
  induction n generalizing k with
  | zero => simp
  | succ n ih =>
    cases k with
    | zero => simp [List.replicate]
    | succ k => simpa [List.replicate] using ih k

/-- Cells of the seeded table: only the empty placement at layer zero. -/
theorem cellMem_seedTable (n : Nat) (lc s0 : Int) :
    ∀ i pl, CellMem pl ((seedTable n lc s0).getD i []) → i = 0 ∧ pl = [] := by
  intro i pl h
  cases i with
  | zero =>
    refine ⟨rfl, ?_⟩
    simp only [seedTable, List.getD_cons_zero] at h
    obtain ⟨p, hp, q, hq, hq2⟩ := h
    simp only [List.mem_singleton] at hp
    subst hp
    simp only [List.mem_singleton] at hq
    subst hq
    exact hq2.symm
  | succ k =>
    simp only [seedTable, List.getD_cons_succ, getD_replicate_nil] at h
    simp [CellMem] at h

/-- Every placement stored at layer `i` of the DP table has exactly `i`
domains. -/
theorem buildTable_length_inv (ds : List Domain) (n : Nat) (lc s0 : Int) :
    ∀ i pl, CellMem pl ((buildTable ds n lc s0).getD i []) → pl.length = i := by
  have main : ∀ (ds' : List Domain) (t : List LevelMap),
      (∀ i pl, CellMem pl (t.getD i []) → pl.length = i) →
      ∀ i pl,
        CellMem pl ((ds'.foldl (fun t d => processDomainGo d t) t).getD i []) →
        pl.length = i := by
    intro ds'
    induction ds' with
    | nil => intro t ht; simpa using ht
    | cons d rest ih =>
      intro t ht
      rw [List.foldl_cons]
      exact ih _ (cellMem_processDomainGo d (fun i pl => pl.length = i)
        (fun i pl => pl.length = i) (fun _ _ h => h)
        (fun i pl h => by simp [h]) t ht)
  intro i pl h
  exact main ds _ (fun i pl h => by
    rcases cellMem_seedTable n lc s0 i pl h with ⟨hi, hpl⟩
    simp [hi, hpl]) i pl h

/-- Every placement stored in the DP table is a sublist of the candidate
list (in candidate order, each candidate used at most once). -/
theorem buildTable_sublist_inv (ds : List Domain) (n : Nat) (lc s0 : Int) :
    ∀ i pl, CellMem pl ((buildTable ds n lc s0).getD i []) → pl.Sublist ds := by
  have main : ∀ (ds' : List Domain) (t : List LevelMap) (pre : List Domain),
      (∀ i pl, CellMem pl (t.getD i []) → pl.Sublist pre) →
      ∀ i pl,
        CellMem pl ((ds'.foldl (fun t d => processDomainGo d t) t).getD i []) →
        pl.Sublist (pre ++ ds') := by
    intro ds'
    induction ds' with
    | nil => intro t pre ht i pl h; simpa using ht i pl h
    | cons d rest ih =>
      intro t pre ht i pl h
      rw [List.foldl_cons] at h
      have h2 := ih (processDomainGo d t) (pre ++ [d])
        (cellMem_processDomainGo d (fun _ pl => pl.Sublist pre)
          (fun _ pl => pl.Sublist (pre ++ [d]))
          (fun _ _ hq => hq.trans (List.sublist_append_left pre [d]))
          (fun _ pl hq => List.Sublist.append hq (List.Sublist.refl [d]))
          t ht) i pl h
      simpa [List.append_assoc] using h2
  intro i pl h
  have := main ds _ [] (fun i pl h => by
    rcases cellMem_seedTable n lc s0 i pl h with ⟨_, hpl⟩
    simp [hpl]) i pl h
  simpa using this

/-- A successful slice pick stores a value of the inner map. -/
theorem pickBestSlice_mem (inner : InnerMap) :
    ∀ (acc : Int × Option (List Domain)) (pl : List Domain),
      (inner.foldl
        (fun acc q => if q.1 > acc.1 ∧ q.1 ≤ 0 then (q.1, some q.2) else acc)
        acc).2 = some pl →
      acc.2 = some pl ∨ ValMem pl inner := by
  induction inner with
  | nil => intro acc pl h; exact Or.inl h
  | cons q rest ih =>
    intro acc pl h
    rw [List.foldl_cons] at h
    rcases ih _ pl h with h' | h'
    · by_cases hc : q.1 > acc.1 ∧ q.1 ≤ 0
      · rw [if_pos hc] at h'
        simp only [Option.some.injEq] at h'
        exact Or.inr ⟨q, by simp, h'⟩
      · rw [if_neg hc] at h'
        exact Or.inl h'
    · obtain ⟨q', hq', hq2⟩ := h'
      exact Or.inr ⟨q', by simp [hq'], hq2⟩

/-- A successful leader pick is a `lookup` result of the layer map. -/
theorem pickBestLeaderMap_mem (m : LevelMap) (inner : InnerMap)
    (h : (pickBestLeaderMap m).2 = some inner) :
    ∃ k, innerLookup m k = some inner := by
  unfold pickBestLeaderMap at h
  have main : ∀ (js : List Nat) (acc : Int × Option InnerMap),
      (js.foldl
        (fun (acc : Int × Option InnerMap) (j : Nat) =>
          if (j : Int) > acc.1 ∧ (j : Int) ≤ 0 then
            ((j : Int), innerLookup m (j : Int))
          else acc)
        acc).2 = some inner →
      acc.2 = some inner ∨ ∃ k, innerLookup m k = some inner := by
    intro js
    induction js with
    | nil => intro acc h; exact Or.inl h
    | cons j rest ih =>
      intro acc h
      rw [List.foldl_cons] at h
      rcases ih _ h with h' | h'
      · by_cases hc : ((j : Int) > acc.1 ∧ (j : Int) ≤ 0)
        · simp only [if_pos hc] at h'
          exact Or.inr ⟨(j : Int), h'⟩
        · simp only [if_neg hc] at h'
          exact Or.inl h'
      · exact Or.inr h'
  rcases main (List.range m.length) _ h with h' | h'
  · exact absurd h' (by simp)
  · exact h'

/-- A `lookup` hit is a member of the layer map. -/
theorem innerLookup_mem (m : LevelMap) (k : Int) (inner : InnerMap)
    (h : innerLookup m k = some inner) : (k, inner) ∈ m := by
  unfold innerLookup at h
  cases hf : m.find? (fun p => p.1 = k) with
  | none => rw [hf] at h; simp at h
  | some p =>
    rw [hf] at h
    have h' : p.2 = inner := by simpa using h
    have hm := List.mem_of_find?_eq_some hf
    have hp : p.1 = k := by simpa using List.find?_some hf
    obtain ⟨p1, p2⟩ := p
    simp only at hp h'
    rw [← hp, ← h']
    exact hm

/-- A non-nil result of `selectOptimalDomainSetToFit` is a stored cell value
of the DP table's top layer. -/
theorem selectOptimal_mem_cells (domains : List Domain) (sc lc sz : Int)
    (pl : List Domain)
    (h : selectOptimalDomainSetToFit domains sc lc sz = some pl) :
    CellMem pl
      ((buildTable domains (simulateGreedy domains sc lc).2.1.toNat lc
        (sc * sz)).getD (simulateGreedy domains sc lc).2.1.toNat []) := by
  unfold selectOptimalDomainSetToFit at h
  by_cases hfit : (simulateGreedy domains sc lc).1 = false
  · rw [if_pos hfit] at h
    cases h
  · rw [if_neg hfit] at h
    simp only at h
    rcases pickBestSlice_mem _ _ pl h with h' | hval
    · exact absurd h' (by simp)
    · cases hbl : (pickBestLeaderMap
          ((buildTable domains (simulateGreedy domains sc lc).2.1.toNat lc
            (sc * sz)).getD (simulateGreedy domains sc lc).2.1.toNat [])).2 with
      | none =>
        rw [hbl] at hval
        obtain ⟨q, hq, _⟩ := hval
        simp at hq
      | some inner =>
        rw [hbl] at hval
        simp only [Option.getD_some] at hval
        obtain ⟨k, hk⟩ := pickBestLeaderMap_mem _ _ hbl
        exact ⟨(k, inner), innerLookup_mem _ _ _ hk, hval⟩

/-! ### Claims C7 and C9 -/

/-- C7: on success the number of domains in the returned placement equals
the optimal domain count reported by `simulateGreedy` on the same candidate
list with the same request. -/
theorem placeSlices_minimality (domains : List Domain) (sc lc sz T : Int)
    (placed : List Domain)
    (hres : (placeSlicesOnDomainsBalanced domains sc lc sz T).1 = some placed) :
    (placed.length : Int) = (simulateGreedy domains sc lc).2.1 := by
  cases hsel : selectOptimalDomainSetToFit domains sc lc sz with
  | none =>
    rw [placeSlices_none_eq domains sc lc sz T hsel] at hres
    exact absurd hres (by simp)
  | some sel =>
    have hsellen : sel.length = (simulateGreedy domains sc lc).2.1.toNat :=
      buildTable_length_inv domains _ lc (sc * sz) _ sel
        (selectOptimal_mem_cells domains sc lc sz sel hsel)
    by_cases hguard : sc < (sel.length : Int) * T
    · rw [placeSlices_guard_eq domains sc lc sz T sel hsel hguard] at hres
      exact absurd hres (by simp)
    · rw [placeSlices_run_eq domains sc lc sz T sel hsel hguard] at hres
      by_cases hcond : 0 < (balanceLoop sz T (sortedDomainsWithLeader sel false)
            (sc - (sel.length : Int) * T) lc).2.1 ∨
          0 < (balanceLoop sz T (sortedDomainsWithLeader sel false)
            (sc - (sel.length : Int) * T) lc).2.2
      · rw [if_pos hcond] at hres
        exact absurd hres (by simp)
      · rw [if_neg hcond] at hres
        have hplaced : (balanceLoop sz T (sortedDomainsWithLeader sel false)
            (sc - (sel.length : Int) * T) lc).1 = placed := by
          simpa using hres
        have hlen1 : placed.length = (sortedDomainsWithLeader sel false).length := by
          rw [← hplaced, balanceLoop_length]
        have hlen2 : (sortedDomainsWithLeader sel false).length = sel.length :=
          (sortedDomainsWithLeader_perm sel false).length_eq
        have hnn := simulateGreedy_cnt_nonneg domains sc lc
        rw [hlen1, hlen2, hsellen]
        exact_mod_cast Int.toNat_of_nonneg hnn

/-- C7, witness: minimality applied to the concrete success
`placeSlicesOnDomainsBalanced [wA] 2 1 1 1`. -/
theorem placeSlices_minimality_witness :
    ((([⟨0, 2, 1, 2, 1, 1⟩] : List Domain).length : Int)
      = (simulateGreedy [wA] 2 1).2.1) :=
  placeSlices_minimality [wA] 2 1 1 1 [⟨0, 2, 1, 2, 1, 1⟩] (by decide)

/-- C9: for pairwise-distinct candidates, any placement returned by
`selectOptimalDomainSetToFit` contains each candidate domain at most once
(the returned list is duplicate-free, so no domain is selected twice, nor
both with and without a leader). -/
theorem selectOptimal_nodup (domains : List Domain) (sc lc sz : Int)
    (pl : List Domain) (hnd : domains.Nodup)
    (h : selectOptimalDomainSetToFit domains sc lc sz = some pl) :
    pl.Nodup :=
  (buildTable_sublist_inv domains _ lc (sc * sz) _ pl
    (selectOptimal_mem_cells domains sc lc sz pl h)).nodup hnd

/-- C9, witness: duplicate-freeness applied to the concrete selection
`selectOptimalDomainSetToFit [wA] 2 1 1 = some [wA]`. -/
theorem selectOptimal_nodup_witness : ([wA] : List Domain).Nodup :=
  selectOptimal_nodup [wA] 2 1 1 [wA] (by decide) (by decide)

/-! ### Sorted-key and nonnegative-key invariants of the DP maps -/

/-- A layer map with strictly ascending leader keys whose inner maps have
strictly ascending slice keys — the invariant that models Go's iteration
over `slices.Sorted(maps.Keys(...))`. -/
def LevelSorted (m : LevelMap) : Prop :=
  m.Pairwise (fun p q => p.1 < q.1) ∧
    ∀ p ∈ m, p.2.Pairwise (fun a b => a.1 < b.1)

/-- Write-if-absent keeps inner keys strictly ascending. -/
theorem insertIfAbsent_pairwise (k : Int) (v : List Domain) (inner : InnerMap)
    (h : inner.Pairwise (fun p q => p.1 < q.1)) :
    (insertIfAbsent k v inner).Pairwise (fun p q => p.1 < q.1) := by
  induction inner with
  | nil => simp [insertIfAbsent]
  | cons q rest ih =>
    rw [List.pairwise_cons] at h
    obtain ⟨hq, hrest⟩ := h
    unfold insertIfAbsent
    split
    · rw [List.pairwise_cons]
      refine ⟨?_, List.pairwise_cons.mpr ⟨hq, hrest⟩⟩
      intro x hx
      rcases List.mem_cons.mp hx with h' | h'
      · subst h'; assumption
      · exact lt_trans (by assumption) (hq x h')
    · split
      · exact List.pairwise_cons.mpr ⟨hq, hrest⟩
      · rw [List.pairwise_cons]
        refine ⟨?_, ih hrest⟩
        intro x hx
        rcases mem_insertIfAbsent k v rest x hx with h' | h'
        · subst h'; omega
        · exact hq x h'

/-- Entries of a layer insertion: the fresh singleton, an old entry, or an
old entry with the value inserted into its inner map. -/
theorem mem_levelInsert (l s : Int) (v : List Domain) (m : LevelMap) :
    ∀ p ∈ levelInsert l s v m,
      p = (l, [(s, v)]) ∨ p ∈ m ∨
        ∃ p' ∈ m, p = (p'.1, insertIfAbsent s v p'.2) := by
  induction m with
  | nil => intro p hp; simpa [levelInsert] using (by simpa [levelInsert] using hp)
  | cons q rest ih =>
    intro p hp
    unfold levelInsert at hp
    split at hp
    · rcases List.mem_cons.mp hp with h' | h'
      · exact Or.inl h'
      · exact Or.inr (Or.inl h')
    · split at hp
      · rcases List.mem_cons.mp hp with h' | h'
        · exact Or.inr (Or.inr ⟨q, by simp, h'⟩)
        · exact Or.inr (Or.inl (by simp [h']))
      · rcases List.mem_cons.mp hp with h' | h'
        · exact Or.inr (Or.inl (by simp [h']))
        · rcases ih p h' with h'' | h'' | ⟨p', hp', hpe⟩
          · exact Or.inl h''
          · exact Or.inr (Or.inl (by simp [h'']))
          · exact Or.inr (Or.inr ⟨p', by simp [hp'], hpe⟩)

/-- Keys of a layer insertion are the inserted key or old keys. -/
theorem keys_levelInsert (l s : Int) (v : List Domain) (m : LevelMap) :
    ∀ p ∈ levelInsert l s v m, p.1 = l ∨ p.1 ∈ m.map Prod.fst := by
  intro p hp
  rcases mem_levelInsert l s v m p hp with h | h | ⟨p', hp', hpe⟩
  · subst h; simp
  · exact Or.inr (List.mem_map.mpr ⟨p, h, rfl⟩)
  · subst hpe
    exact Or.inr (List.mem_map.mpr ⟨p', hp', rfl⟩)

/-- A layer insertion keeps the layer sorted. -/
theorem levelInsert_levelSorted (l s : Int) (v : List Domain) (m : LevelMap)
    (h : LevelSorted m) : LevelSorted (levelInsert l s v m) := by
  obtain ⟨houter, hinner⟩ := h
  constructor
  · clear hinner
    induction m with
    | nil => simp [levelInsert]
    | cons q rest ih =>
      rw [List.pairwise_cons] at houter
      obtain ⟨hq, hrest⟩ := houter
      unfold levelInsert
      split
      · rw [List.pairwise_cons]
        refine ⟨?_, List.pairwise_cons.mpr ⟨hq, hrest⟩⟩
        intro x hx
        rcases List.mem_cons.mp hx with h' | h'
        · subst h'; assumption
        · exact lt_trans (by assumption) (hq x h')
      · split
        · rw [List.pairwise_cons]
          exact ⟨fun x hx => hq x hx, hrest⟩
        · rw [List.pairwise_cons]
          refine ⟨?_, ih hrest⟩
          intro x hx
          rcases keys_levelInsert l s v rest x hx with h' | h'
          · rw [h']; omega
          · obtain ⟨y, hy, hxy⟩ := List.mem_map.mp h'
            rw [← hxy]
            exact hq y hy
  · intro p hp
    rcases mem_levelInsert l s v m p hp with h | h | ⟨p', hp', hpe⟩
    · subst h; simp
    · exact hinner p h
    · subst hpe
      exact insertIfAbsent_pairwise s v p'.2 (hinner p' hp')

/-- Processing one cell keeps the layer sorted. -/
theorem processCell_levelSorted (d : Domain) (l s : Int) (v : List Domain)
    (acc : LevelMap) (h : LevelSorted acc) :
    LevelSorted (processCell d l s v acc) := by
  unfold processCell
  split
  · exact h
  · split
    · split
      · exact levelInsert_levelSorted _ _ _ _ (levelInsert_levelSorted _ _ _ _ h)
      · exact levelInsert_levelSorted _ _ _ _ h
    · split
      · exact levelInsert_levelSorted _ _ _ _ h
      · exact h

/-- Folding one inner map's cells keeps the layer sorted. -/
theorem innerFold_levelSorted (d : Domain) (l : Int) (inner : InnerMap) :
    ∀ (acc : LevelMap), LevelSorted acc →
      LevelSorted
        (inner.foldl (fun acc2 q => processCell d l q.1 q.2 acc2) acc) := by
  induction inner with
  | nil => intro acc h; exact h
  | cons q rest ih =>
    intro acc h
    rw [List.foldl_cons]
    exact ih _ (processCell_levelSorted d l q.1 q.2 acc h)

/-- Processing a layer keeps the target layer sorted. -/
theorem processLevel_levelSorted (d : Domain) (prev : LevelMap) :
    ∀ (cur : LevelMap), LevelSorted cur → LevelSorted (processLevel d prev cur) := by
  induction prev with
  | nil => intro cur h; exact h
  | cons p rest ih =>
    intro cur h
    rw [processLevel_cons]
    exact ih _ (innerFold_levelSorted d p.1 p.2 cur h)

/-- `processAux` keeps every layer sorted. -/
theorem processAux_levelSorted (d : Domain) :
    ∀ (ts : List LevelMap) (prev : LevelMap), (∀ t ∈ ts, LevelSorted t) →
      ∀ t' ∈ processAux d prev ts, LevelSorted t' := by
  intro ts
  induction ts with
  | nil => intro prev _ t' ht'; simp [processAux] at ht'
  | cons t rest ih =>
    intro prev hts t' ht'
    simp only [processAux] at ht'
    rcases List.mem_cons.mp ht' with h' | h'
    · subst h'
      exact processLevel_levelSorted d prev t (hts t (by simp))
    · exact ih t (fun x hx => hts x (by simp [hx])) t' h'

/-- One candidate pass keeps every layer sorted. -/
theorem processDomainGo_levelSorted (d : Domain) (t : List LevelMap)
    (ht : ∀ lm ∈ t, LevelSorted lm) :
    ∀ lm ∈ processDomainGo d t, LevelSorted lm := by
  cases t with
  | nil => intro lm hlm; simp [processDomainGo] at hlm
  | cons t0 rest =>
    intro lm hlm
    simp only [processDomainGo] at hlm
    rcases List.mem_cons.mp hlm with h' | h'
    · rw [h']; exact ht t0 (by simp)
    · exact processAux_levelSorted d rest t0 (fun x hx => ht x (by simp [hx])) lm h'

/-- Every layer of the DP table is sorted. -/
theorem buildTable_levelSorted (ds : List Domain) (n : Nat) (lc s0 : Int) :
    ∀ lm ∈ buildTable ds n lc s0, LevelSorted lm := by
  have main : ∀ (ds' : List Domain) (t : List LevelMap),
      (∀ lm ∈ t, LevelSorted lm) →
      ∀ lm ∈ ds'.foldl (fun t d => processDomainGo d t) t, LevelSorted lm := by
    intro ds'
    induction ds' with
    | nil => intro t ht; exact ht
    | cons d rest ih =>
      intro t ht
      rw [List.foldl_cons]
      exact ih _ (processDomainGo_levelSorted d t ht)
  refine main ds _ ?_
  intro lm hlm
  simp only [seedTable] at hlm
  rcases List.mem_cons.mp hlm with h' | h'
  · subst h'
    exact ⟨by simp, by intro p hp; simp at hp; subst hp; simp⟩
  · have : lm = [] := List.eq_of_mem_replicate h'
    subst this
    exact ⟨by simp, by simp⟩

/-- All leader keys of a layer map are nonnegative. -/
def NonnegKeys (m : LevelMap) : Prop := ∀ p ∈ m, 0 ≤ p.1

/-- Inserting a nonnegative key keeps the keys nonnegative. -/
theorem levelInsert_nonneg (l s : Int) (v : List Domain) (m : LevelMap)
    (hl : 0 ≤ l) (h : NonnegKeys m) : NonnegKeys (levelInsert l s v m) := by
  intro p hp
  rcases keys_levelInsert l s v m p hp with h' | h'
  · rw [h']; exact hl
  · obtain ⟨y, hy, hxy⟩ := List.mem_map.mp h'
    rw [← hxy]
    exact h y hy

/-- Processing a cell with a nonnegative leader key keeps the keys
nonnegative: case 1 writes `l - leaderState` with `0 < l` and
`leaderState = 1`, case 2 writes `l` itself. -/
theorem processCell_nonneg (d : Domain) (l s : Int) (v : List Domain)
    (acc : LevelMap) (hl : 0 ≤ l) (hls : d.leaderState = 0 ∨ d.leaderState = 1)
    (h : NonnegKeys acc) : NonnegKeys (processCell d l s v acc) := by
  unfold processCell
  split
  · exact h
  · split
    · have hkey : 0 ≤ l - d.leaderState := by
        rcases hls with h' | h' <;> omega
      split
      · exact levelInsert_nonneg _ _ _ _ hl (levelInsert_nonneg _ _ _ _ hkey h)
      · exact levelInsert_nonneg _ _ _ _ hkey h
    · split
      · exact levelInsert_nonneg _ _ _ _ hl h
      · exact h

/-- Folding one inner map keeps the keys nonnegative. -/
theorem innerFold_nonneg (d : Domain) (l : Int) (inner : InnerMap)
    (hl : 0 ≤ l) (hls : d.leaderState = 0 ∨ d.leaderState = 1) :
    ∀ (acc : LevelMap), NonnegKeys acc →
      NonnegKeys (inner.foldl (fun acc2 q => processCell d l q.1 q.2 acc2) acc) := by
  induction inner with
  | nil => intro acc h; exact h
  | cons q rest ih =>
    intro acc h
    rw [List.foldl_cons]
    exact ih _ (processCell_nonneg d l q.1 q.2 acc hl hls h)

/-- Processing a layer with nonnegative keys keeps the target layer's keys
nonnegative. -/
theorem processLevel_nonneg (d : Domain) (prev : LevelMap)
    (hprev : NonnegKeys prev) (hls : d.leaderState = 0 ∨ d.leaderState = 1) :
    ∀ (cur : LevelMap), NonnegKeys cur → NonnegKeys (processLevel d prev cur) := by
  induction prev with
  | nil => intro cur h; exact h
  | cons p rest ih =>
    intro cur h
    rw [processLevel_cons]
    exact ih (fun x hx => hprev x (by simp [hx]))
      _ (innerFold_nonneg d p.1 p.2 (hprev p (by simp)) hls cur h)

/-- `processAux` keeps every layer's keys nonnegative. -/
theorem processAux_nonneg (d : Domain)
    (hls : d.leaderState = 0 ∨ d.leaderState = 1) :
    ∀ (ts : List LevelMap) (prev : LevelMap), NonnegKeys prev →
      (∀ t ∈ ts, NonnegKeys t) → ∀ t' ∈ processAux d prev ts, NonnegKeys t' := by
  intro ts
  induction ts with
  | nil => intro prev _ _ t' ht'; simp [processAux] at ht'
  | cons t rest ih =>
    intro prev hprev hts t' ht'
    simp only [processAux] at ht'
    rcases List.mem_cons.mp ht' with h' | h'
    · rw [h']
      exact processLevel_nonneg d prev hprev hls t (hts t (by simp))
    · exact ih t (hts t (by simp)) (fun x hx => hts x (by simp [hx])) t' h'

/-- One candidate pass keeps every layer's keys nonnegative. -/
theorem processDomainGo_nonneg (d : Domain)
    (hls : d.leaderState = 0 ∨ d.leaderState = 1) (t : List LevelMap)
    (ht : ∀ lm ∈ t, NonnegKeys lm) :
    ∀ lm ∈ processDomainGo d t, NonnegKeys lm := by
  cases t with
  | nil => intro lm hlm; simp [processDomainGo] at hlm
  | cons t0 rest =>
    intro lm hlm
    simp only [processDomainGo] at hlm
    rcases List.mem_cons.mp hlm with h' | h'
    · rw [h']; exact ht t0 (by simp)
    · exact processAux_nonneg d hls rest t0 (ht t0 (by simp))
        (fun x hx => ht x (by simp [hx])) lm h'

/-- Every layer of the DP table has nonnegative leader keys when seeded with
a nonnegative leader count on candidates with `leaderState ∈ {0, 1}`. -/
theorem buildTable_nonneg (ds : List Domain) (n : Nat) (lc s0 : Int)
    (hlc : 0 ≤ lc)
    (hls : ∀ d ∈ ds, d.leaderState = 0 ∨ d.leaderState = 1) :
    ∀ lm ∈ buildTable ds n lc s0, NonnegKeys lm := by
  have main : ∀ (ds' : List Domain) (t : List LevelMap),
      (∀ d ∈ ds', d.leaderState = 0 ∨ d.leaderState = 1) →
      (∀ lm ∈ t, NonnegKeys lm) →
      ∀ lm ∈ ds'.foldl (fun t d => processDomainGo d t) t, NonnegKeys lm := by
    intro ds'
    induction ds' with
    | nil => intro t _ ht; exact ht
    | cons d rest ih =>
      intro t hls' ht
      rw [List.foldl_cons]
      exact ih _ (fun x hx => hls' x (by simp [hx]))
        (processDomainGo_nonneg d (hls' d (by simp)) t ht)
  refine main ds _ hls ?_
  intro lm hlm
  simp only [seedTable] at hlm
  rcases List.mem_cons.mp hlm with h' | h'
  · rw [h']
    intro p hp
    simp only [List.mem_singleton] at hp
    rw [hp]
    exact hlc
  · have : lm = [] := List.eq_of_mem_replicate h'
    rw [this]
    intro p hp
    simp at hp

/-- Transport of a layer property through `getD`. -/
theorem getD_prop {P : LevelMap → Prop} (t : List LevelMap) (i : Nat)
    (h : ∀ lm ∈ t, P lm) (h0 : P ([] : LevelMap)) : P (t.getD i []) := by
  induction t generalizing i with
  | nil => simpa using h0
  | cons x xs ih =>
    cases i with
    | zero => exact h x (by simp)
    | succ k =>
      rw [List.getD_cons_succ]
      exact ih k (fun lm hm => h lm (by simp [hm]))

/-- Indices `1, 2, ...` never update the leader-pick accumulator: a positive
index fails the `leadersLeft ≤ 0` test. -/
theorem pickLeader_foldl_noop (m : LevelMap) (js : List Nat)
    (hjs : ∀ j ∈ js, j ≠ 0) (acc : Int × Option InnerMap) :
    js.foldl
      (fun (acc : Int × Option InnerMap) (j : Nat) =>
        if (j : Int) > acc.1 ∧ (j : Int) ≤ 0 then ((j : Int), innerLookup m (j : Int))
        else acc) acc = acc := by
  induction js generalizing acc with
  | nil => rfl
  | cons j rest ih =>
    rw [List.foldl_cons, if_neg ?hc]
    case hc =>
      intro hc
      have hj : j ≠ 0 := hjs j (by simp)
      have : 1 ≤ j := Nat.one_le_iff_ne_zero.mpr hj
      have : (1 : Int) ≤ (j : Int) := by exact_mod_cast this
      have := hc.2
      omega
    exact ih (fun x hx => hjs x (by simp [hx])) acc

/-- The leader-pick loop, run on a nonempty layer map, always selects the
index `0` as the `leadersLeft` value and looks it up as a key: only `j = 0`
passes `leadersLeft > -2^31 ∧ leadersLeft ≤ 0`. -/
theorem pickBestLeaderMap_eq (m : LevelMap) (hm : m ≠ []) :
    pickBestLeaderMap m = (0, innerLookup m 0) := by
  unfold pickBestLeaderMap
  obtain ⟨n, hn⟩ : ∃ n, m.length = n + 1 := by
    cases m with
    | nil => exact absurd rfl hm
    | cons a l => exact ⟨l.length, rfl⟩
  rw [hn, List.range_succ_eq_map, List.foldl_cons,
    if_pos (by constructor <;> norm_num)]
  rw [pickLeader_foldl_noop m _ ?hne _]
  case hne =>
    intro j hj
    simp only [List.mem_map] at hj
    obtain ⟨x, _, hx⟩ := hj
    omega
  norm_num

/-- The running best of the slice-pick fold is the initial value or one of
the keys. -/
theorem pickBestSlice_fst (inner : InnerMap) :
    ∀ (acc : Int × Option (List Domain)),
      (inner.foldl
        (fun acc q => if q.1 > acc.1 ∧ q.1 ≤ 0 then (q.1, some q.2) else acc)
        acc).1 = acc.1 ∨
      (inner.foldl
        (fun acc q => if q.1 > acc.1 ∧ q.1 ≤ 0 then (q.1, some q.2) else acc)
        acc).1 ∈ inner.map Prod.fst := by
  induction inner with
  | nil => intro acc; exact Or.inl rfl
  | cons q rest ih =>
    intro acc
    rw [List.foldl_cons]
    by_cases hc : q.1 > acc.1 ∧ q.1 ≤ 0
    · rw [if_pos hc]
      rcases ih (q.1, some q.2) with h | h
      · refine Or.inr ?_
        rw [List.map_cons, h]
        exact List.mem_cons_self _ _
      · refine Or.inr ?_
        rw [List.map_cons]
        exact List.mem_cons.mpr (Or.inr h)
    · rw [if_neg hc]
      rcases ih acc with h | h
      · exact Or.inl h
      · refine Or.inr ?_
        rw [List.map_cons]
        exact List.mem_cons.mpr (Or.inr h)

/-- The winner-cell rule as §4.5 of the spec words it: among the reached
cells first the largest leaders-remaining key `≤ 0`, then within it the
largest slice-units-remaining key `≤ 0`; the stored list of that cell. -/
def pickWinnerSpec (m : LevelMap) : Option (List Domain) :=
  match ((m.map Prod.fst).filter (fun k => decide (k ≤ 0))).max? with
  | none => none
  | some bestL =>
    match innerLookup m bestL with
    | none => none
    | some inner =>
      match ((inner.map Prod.fst).filter (fun k => decide (k ≤ 0))).max? with
      | none => none
      | some bestS => (inner.find? (fun q => q.1 = bestS)).map Prod.snd

/-- On a strictly ascending inner map whose keys exceed the `-2^31`
sentinel, the slice-pick loop returns exactly the value at the largest key
`≤ 0`. -/
theorem pickBestSlice_spec : ∀ (inner : InnerMap),
    inner.Pairwise (fun p q => p.1 < q.1) →
    (∀ p ∈ inner, -(2 ^ 31 : Int) < p.1) →
    (pickBestSlice inner).2 =
      (match ((inner.map Prod.fst).filter (fun k => decide (k ≤ 0))).max? with
       | none => none
       | some bestS => (inner.find? (fun q => q.1 = bestS)).map Prod.snd) := by
  intro inner
  induction inner using List.reverseRecOn with
  | nil => intro _ _; rfl
  | append_singleton rest q ih =>
    intro hs hb
    have hs' : rest.Pairwise (fun p q => p.1 < q.1) := (List.pairwise_append.mp hs).1
    have hb' : ∀ p ∈ rest, -(2 ^ 31 : Int) < p.1 := fun p hp => hb p (by simp [hp])
    have hlt : ∀ p ∈ rest, p.1 < q.1 := by
      have h2 := (List.pairwise_append.mp hs).2.2
      intro p hp
      exact h2 p hp q (by simp)
    have hcode : pickBestSlice (rest ++ [q]) =
        (if q.1 > (pickBestSlice rest).1 ∧ q.1 ≤ 0 then (q.1, some q.2)
         else pickBestSlice rest) := by
      unfold pickBestSlice
      rw [List.foldl_append]
      rfl
    by_cases hq : q.1 ≤ 0
    · have hfst : (pickBestSlice rest).1 < q.1 := by
        rcases pickBestSlice_fst rest (-(2 ^ 31 : Int), none) with h | h
        · rw [pickBestSlice, h]
          exact hb q (by simp)
        · obtain ⟨p, hp, hpq⟩ := List.mem_map.mp h
          rw [pickBestSlice, ← hpq]
          exact hlt p hp
      rw [hcode, if_pos ⟨hfst, hq⟩]
      have hmax : (((rest ++ [q]).map Prod.fst).filter
          (fun k => decide (k ≤ 0))).max? = some q.1 := by
        rw [int_max?_eq_some_iff]
        constructor
        · rw [List.map_append, List.filter_append]
          refine List.mem_append.mpr (Or.inr ?_)
          simp [hq]
        · intro b hbmem
          rw [List.map_append, List.filter_append] at hbmem
          rcases List.mem_append.mp hbmem with hmem | hmem
          · obtain ⟨p, hp, hpb⟩ := List.mem_map.mp (List.mem_filter.mp hmem).1
            rw [← hpb]
            exact le_of_lt (hlt p hp)
          · have : b = q.1 := by
              have := (List.mem_filter.mp hmem).1
              simpa using this
            rw [this]
      have hfind : (rest ++ [q]).find? (fun p => p.1 = q.1) = some q := by
        rw [List.find?_append]
        have h1 : rest.find? (fun p => p.1 = q.1) = none := by
          rw [List.find?_eq_none]
          intro p hp
          simp only [decide_eq_true_eq]
          exact ne_of_lt (hlt p hp)
        rw [h1]
        simp
      rw [hmax]
      show some q.2 = ((rest ++ [q]).find? (fun x => x.1 = q.1)).map Prod.snd
      rw [hfind]
      rfl
    · have hcond : ¬(q.1 > (pickBestSlice rest).1 ∧ q.1 ≤ 0) := fun hc => hq hc.2
      rw [hcode, if_neg hcond, ih hs' hb']
      have hfq : ((rest ++ [q]).map Prod.fst).filter (fun k => decide (k ≤ 0))
          = (rest.map Prod.fst).filter (fun k => decide (k ≤ 0)) := by
        rw [List.map_append, List.filter_append]
        simp [hq]
      rw [hfq]
      cases hmax : ((rest.map Prod.fst).filter (fun k => decide (k ≤ 0))).max? with
      | none => rfl
      | some bestS =>
        have hbest := (int_max?_eq_some_iff _ _).mp hmax
        have hmem : bestS ∈ rest.map Prod.fst := (List.mem_filter.mp hbest.1).1
        obtain ⟨p, hp, hpb⟩ := List.mem_map.mp hmem
        have hfind : ∃ r, rest.find? (fun x => x.1 = bestS) = some r := by
          cases hf : rest.find? (fun x => x.1 = bestS) with
          | some r => exact ⟨r, rfl⟩
          | none =>
            rw [List.find?_eq_none] at hf
            exact absurd (by simp [hpb]) (hf p hp)
        obtain ⟨r, hr⟩ := hfind
        show (rest.find? (fun x => x.1 = bestS)).map Prod.snd
          = ((rest ++ [q]).find? (fun x => x.1 = bestS)).map Prod.snd
        rw [List.find?_append, hr]
        rfl

/-! ### Claim C1: the winner-cell selection rule -/

/-- C1: when the feasibility simulator reports a fit, on candidates with
`leaderState ∈ {0, 1}` (spec §3 invariant 2) and a nonnegative leader count,
`selectOptimalDomainSetToFit` returns exactly the cell of the DP table's top
layer picked by the spec's rule: the largest reached leaders-remaining key
`≤ 0` first, then within it the largest slice-units-remaining key `≤ 0`.
The side condition on the stored slice keys keeps the `int32` sentinel
`-2^31` of the code a true minus infinity in the `Int` model. -/
theorem selectOptimal_winner_rule (domains : List Domain) (sc lc sz : Int)
    (hlc : 0 ≤ lc)
    (hls : ∀ d ∈ domains, d.leaderState = 0 ∨ d.leaderState = 1)
    (hfit : (simulateGreedy domains sc lc).1 = true)
    (hbound : ∀ p ∈ (buildTable domains (simulateGreedy domains sc lc).2.1.toNat
        lc (sc * sz)).getD (simulateGreedy domains sc lc).2.1.toNat [],
      ∀ q ∈ p.2, -(2 ^ 31 : Int) < q.1) :
    selectOptimalDomainSetToFit domains sc lc sz =
      pickWinnerSpec ((buildTable domains (simulateGreedy domains sc lc).2.1.toNat
        lc (sc * sz)).getD (simulateGreedy domains sc lc).2.1.toNat []) := by
  have hsorted : LevelSorted ((buildTable domains
      (simulateGreedy domains sc lc).2.1.toNat lc (sc * sz)).getD
      (simulateGreedy domains sc lc).2.1.toNat []) :=
    getD_prop _ _ (buildTable_levelSorted domains _ lc (sc * sz))
      ⟨by simp, by simp⟩
  have hnn : NonnegKeys ((buildTable domains
      (simulateGreedy domains sc lc).2.1.toNat lc (sc * sz)).getD
      (simulateGreedy domains sc lc).2.1.toNat []) :=
    getD_prop _ _ (buildTable_nonneg domains _ lc (sc * sz) hlc hls)
      (by intro p hp; simp at hp)
  unfold selectOptimalDomainSetToFit
  rw [if_neg (by simp [hfit])]
  simp only
  set m := (buildTable domains (simulateGreedy domains sc lc).2.1.toNat lc
    (sc * sz)).getD (simulateGreedy domains sc lc).2.1.toNat [] with hmdef
  by_cases hme : m = []
  · rw [hme]
    rfl
  · rw [pickBestLeaderMap_eq m hme]
    cases h0 : innerLookup m 0 with
    | none =>
      have hpos : ∀ p ∈ m, 0 < p.1 := by
        intro p hp
        rcases lt_or_eq_of_le (hnn p hp) with h | h
        · exact h
        · exfalso
          cases hf : m.find? (fun x => x.1 = 0) with
          | some r =>
            have : innerLookup m 0 = some r.2 := by
              unfold innerLookup
              rw [hf]
              rfl
            rw [h0] at this
            cases this
          | none =>
            rw [List.find?_eq_none] at hf
            exact hf p hp (by simp [← h])
      have hfilter : (m.map Prod.fst).filter (fun k => decide (k ≤ 0)) = [] := by
        rw [List.filter_eq_nil_iff]
        intro a ha
        obtain ⟨p, hp, hpa⟩ := List.mem_map.mp ha
        simp only [decide_eq_true_eq, not_le]
        rw [← hpa]
        exact hpos p hp
      unfold pickWinnerSpec
      rw [hfilter]
      rfl
    | some inner =>
      have hmem : (0, inner) ∈ m := innerLookup_mem m 0 inner h0
      have hinner_sorted : inner.Pairwise (fun p q => p.1 < q.1) :=
        hsorted.2 (0, inner) hmem
      have hinner_bound : ∀ q ∈ inner, -(2 ^ 31 : Int) < q.1 :=
        hbound (0, inner) hmem
      have hmax : ((m.map Prod.fst).filter (fun k => decide (k ≤ 0))).max?
          = some 0 := by
        rw [int_max?_eq_some_iff]
        constructor
        · exact List.mem_filter.mpr
            ⟨List.mem_map.mpr ⟨(0, inner), hmem, rfl⟩, by decide⟩
        · intro b hbm
          have := (List.mem_filter.mp hbm).2
          simpa using this
      unfold pickWinnerSpec
      rw [hmax]
      show (pickBestSlice inner).2 =
        (match innerLookup m 0 with
         | none => none
         | some inner =>
           match ((inner.map Prod.fst).filter (fun k => decide (k ≤ 0))).max? with
           | none => none
           | some bestS => (inner.find? (fun x => x.1 = bestS)).map Prod.snd)
      rw [h0]
      exact pickBestSlice_spec inner hinner_sorted hinner_bound

/-- C1, witness: the winner rule applied to the concrete input `[wA]`,
`sliceCount = 2`, `leaderCount = 1`, `sliceSize = 1`. -/
theorem selectOptimal_winner_rule_witness :
    selectOptimalDomainSetToFit [wA] 2 1 1 =
      pickWinnerSpec ((buildTable [wA] (simulateGreedy [wA] 2 1).2.1.toNat
        1 (2 * 1)).getD (simulateGreedy [wA] 2 1).2.1.toNat []) :=
  selectOptimal_winner_rule [wA] 2 1 1 (by decide) (by decide) (by decide)
    (by decide)
